import Mathlib

/-!
Verification of the Debian repository index-generation pipeline of debrepbuild.

Each Rust function relevant to the claims is shallowly embedded as an
executable Lean definition, translated from the source files under src/:

* src/debian/dist_files/package.rs  (PackageEntry::generate_entry)
* src/debian/archive.rs             (Archive::new, Archive::inner_control)
* src/debian/dist_files/mod.rs      (ContentsIterator, DistFiles::compress_and_release)
* src/repo/generate.rs              (contents, ContentIterator)
* src/repo/build/mod.rs             (sbuild dependency deduplication)
* src/compress.rs                   (inner_compress)
* src/debian/info.rs                (get_debian_package_info)

Strings are modelled by Lean String (a structure over List Char); byte
slices (file paths, serialized index lines) by List Nat with ASCII codes.
Fallible Rust code returning io::Result is modelled with Except / Option.
-/

namespace Debrepbuild

/-! ### Control maps

A control map models the Rust BTreeMap<String, String> holding the fields
parsed from a control file.  BTreeMap keys are unique, so an association
list with unique keys is an adequate model; lookup finds the first match
and removal drops every pair with the key. -/

abbrev Ctrl := List (String × String)

/-- Lookup of a key in a control map (BTreeMap::get). -/
def ctrlGet (m : Ctrl) (k : String) : Option String :=
  match m with
  | [] => none
  | (k', v) :: rest => if k' = k then some v else ctrlGet rest k

/-- Removal of a key from a control map (BTreeMap::remove drops the pair). -/
def ctrlRemove (m : Ctrl) (k : String) : Ctrl :=
  m.filter (fun p => p.1 != k)

theorem ctrlGet_remove_ne (m : Ctrl) (k k' : String) (h : k' ≠ k) :
    ctrlGet (ctrlRemove m k) k' = ctrlGet m k' := by
  induction m with
  | nil => rfl
  | cons p rest ih =>
    by_cases hp : p.1 = k
    · have hne : ¬ (k = k') := fun hh => h hh.symm
      simp only [ctrlRemove, List.filter_cons, hp, bne_self_eq_false, ctrlGet, hne,
        if_false]
      simpa [ctrlRemove] using ih
    · simp only [ctrlRemove, List.filter_cons, bne_iff_ne, ne_eq, hp,
        not_false_eq_true, if_true]
      cases p with
      | mk k0 v0 =>
        simp only [ctrlGet]
        by_cases hk' : k0 = k'
        · simp [hk']
        · simp only [hk', if_false]
          simpa [ctrlRemove] using ih

/-! ### First lines

Rust str::lines().next(): None on the empty string, otherwise the prefix
before the first newline, with a carriage return stripped when the line
was terminated by a newline. -/

/-- Drop one trailing carriage return, as Rust lines() does for lines that
were terminated by a newline. -/
def stripCR (l : List Char) : List Char :=
  match l.getLast? with
  | some c => if c = '\r' then l.dropLast else l
  | none => l

/-- Model of value.lines().next() in generate_entry. -/
def firstLine (s : String) : Option String :=
  if s.data.isEmpty then none
  else
    let pre := s.data.takeWhile (fun c => c != '\n')
    if pre.length < s.data.length then some ⟨stripCR pre⟩ else some ⟨pre⟩

/-- Total version of firstLine, defaulting to the empty string. -/
def firstLineD (s : String) : String := (firstLine s).getD ""

/-! ### PackageEntry and generate_entry
(src/debian/dist_files/package.rs lines 17-86) -/

structure PackageEntry where
  control : Ctrl
  filename : String
  size : Nat
  md5sum : String
  sha1 : String
  sha256 : String
  sha512 : String

/-- Model of the inner get_key helper: remove a required key or fail with
the message naming the field. -/
def getKey (m : Ctrl) (k : String) : Except String (String × Ctrl) :=
  match ctrlGet m k with
  | some v => .ok (v, ctrlRemove m k)
  | none => .error (k ++ " not found in control file")

/-- Model of the inner write_entry helper: append one stanza line. -/
def writeEntry (out : String) (k v : String) : String :=
  out ++ k ++ ": " ++ v ++ "\n"

/-- Model of the write_from_map! macro step: consume a required field. -/
def requiredStep (st : String × Ctrl) (k : String) : Except String (String × Ctrl) :=
  match getKey st.2 k with
  | .ok (v, m) => .ok (writeEntry st.1 k v, m)
  | .error e => .error e

/-- Model of the optional_map! macro step: consume an optional field,
writing only the first line of its value, and nothing when the value has
no first line (the empty string). -/
def optionalStep (st : String × Ctrl) (k : String) : String × Ctrl :=
  match ctrlGet st.2 k with
  | some v =>
    (match firstLine v with
     | some l => writeEntry st.1 k l
     | none => st.1, ctrlRemove st.2 k)
  | none => st

/-- Shallow embedding of PackageEntry::generate_entry from
src/debian/dist_files/package.rs: the exact sequence of required,
optional and fixed writes, with Origin taken from the origin argument and
Bugs from the bugs argument. -/
def generate_entry (e : PackageEntry) (origin : String) (bugs : Option String) :
    Except String String := do
  let st ← requiredStep ("", e.control) "Package"
  let st := optionalStep st "Package-Type"
  let st ← requiredStep st "Architecture"
  let st ← requiredStep st "Version"
  let st := optionalStep st "Multi-Arch"
  let st := optionalStep st "Auto-Built-Package"
  let st ← requiredStep st "Priority"
  let st ← requiredStep st "Section"
  let st := (writeEntry st.1 "Origin" origin, st.2)
  let st ← requiredStep st "Maintainer"
  let st ← requiredStep st "Installed-Size"
  let st := optionalStep st "Provides"
  let st := optionalStep st "Pre-Depends"
  let st := optionalStep st "Depends"
  let st := optionalStep st "Recommends"
  let st := optionalStep st "Suggests"
  let st := optionalStep st "Conflicts"
  let st := optionalStep st "Breaks"
  let st := optionalStep st "Replaces"
  let st := match bugs with
    | some b => (writeEntry st.1 "Bugs" b, st.2)
    | none => st
  let st := (writeEntry st.1 "Filename" e.filename, st.2)
  let st := (writeEntry st.1 "Size" (toString e.size), st.2)
  let st := (writeEntry st.1 "MD5sum" e.md5sum, st.2)
  let st := (writeEntry st.1 "SHA1" e.sha1, st.2)
  let st := (writeEntry st.1 "SHA256" e.sha256, st.2)
  let st := (writeEntry st.1 "SHA512" e.sha512, st.2)
  let st := optionalStep st "Homepage"
  let st := optionalStep st "Description"
  let st := optionalStep st "License"
  let st := optionalStep st "Vendor"
  let st := optionalStep st "Build-Ids"
  return st.1

/-! ### Specification-side stanza description

The fixed field order of the claim, written independently of the threaded
state of generate_entry: one line per required field, one line per present
optional field (holding the first line of its value), Origin injected
from configuration, Bugs from configuration when given. -/

/-- The required control fields, in the order generate_entry consumes them. -/
def requiredKeys : List String :=
  ["Package", "Architecture", "Version", "Priority", "Section",
   "Maintainer", "Installed-Size"]

/-- Line for a required field, read from the original control map. -/
def reqLine (m : Ctrl) (k : String) : String :=
  k ++ ": " ++ (ctrlGet m k).getD "" ++ "\n"

/-- Line for an optional field: nothing when the field is absent or its
value has no first line, otherwise one line holding the first line of the
value. -/
def optLine (m : Ctrl) (k : String) : String :=
  match ctrlGet m k with
  | some v =>
    match firstLine v with
    | some l => k ++ ": " ++ l ++ "\n"
    | none => ""
  | none => ""

/-- Stanza text before the Description field, in the claimed fixed order. -/
def stanzaBeforeDescription (e : PackageEntry) (origin : String) (bugs : Option String) :
    String :=
  reqLine e.control "Package"
  ++ optLine e.control "Package-Type"
  ++ reqLine e.control "Architecture"
  ++ reqLine e.control "Version"
  ++ optLine e.control "Multi-Arch"
  ++ optLine e.control "Auto-Built-Package"
  ++ reqLine e.control "Priority"
  ++ reqLine e.control "Section"
  ++ ("Origin" ++ ": " ++ origin ++ "\n")
  ++ reqLine e.control "Maintainer"
  ++ reqLine e.control "Installed-Size"
  ++ optLine e.control "Provides"
  ++ optLine e.control "Pre-Depends"
  ++ optLine e.control "Depends"
  ++ optLine e.control "Recommends"
  ++ optLine e.control "Suggests"
  ++ optLine e.control "Conflicts"
  ++ optLine e.control "Breaks"
  ++ optLine e.control "Replaces"
  ++ (match bugs with | some b => "Bugs" ++ ": " ++ b ++ "\n" | none => "")
  ++ ("Filename" ++ ": " ++ e.filename ++ "\n")
  ++ ("Size" ++ ": " ++ toString e.size ++ "\n")
  ++ ("MD5sum" ++ ": " ++ e.md5sum ++ "\n")
  ++ ("SHA1" ++ ": " ++ e.sha1 ++ "\n")
  ++ ("SHA256" ++ ": " ++ e.sha256 ++ "\n")
  ++ ("SHA512" ++ ": " ++ e.sha512 ++ "\n")
  ++ optLine e.control "Homepage"

/-- Stanza text after the Description field. -/
def stanzaAfterDescription (e : PackageEntry) : String :=
  optLine e.control "License"
  ++ optLine e.control "Vendor"
  ++ optLine e.control "Build-Ids"

/-- The full stanza in the claimed fixed field order. -/
def claimStanza (e : PackageEntry) (origin : String) (bugs : Option String) : String :=
  stanzaBeforeDescription e origin bugs
  ++ optLine e.control "Description"
  ++ stanzaAfterDescription e

/-- First required field missing from a control map, in consumption order. -/
def firstMissingKey (m : Ctrl) : Option String :=
  requiredKeys.find? (fun k => (ctrlGet m k).isNone)

theorem ctrlRemove_of_not_mem (m : Ctrl) (k : String) (h : ctrlGet m k = none) :
    ctrlRemove m k = m := by
  induction m with
  | nil => rfl
  | cons p rest ih =>
    cases p with
    | mk k0 v0 =>
      by_cases hk : k0 = k
      · simp [ctrlGet, hk] at h
      · simp only [ctrlGet, hk, if_false] at h
        simp [ctrlRemove, hk, if_true] at *
        exact ih h

theorem optionalStep_view (out : String) (m : Ctrl) (k : String) :
    optionalStep (out, m) k = (out ++ optLine m k, ctrlRemove m k) := by
  cases h : ctrlGet m k with
  | none =>
    simp [optionalStep, optLine, h, ctrlRemove_of_not_mem m k h]
  | some v =>
    cases hf : firstLine v with
    | none => simp [optionalStep, optLine, h, hf]
    | some l => simp [optionalStep, optLine, writeEntry, h, hf, String.append_assoc]

theorem requiredStep_view (out : String) (m : Ctrl) (k v : String)
    (h : ctrlGet m k = some v) :
    requiredStep (out, m) k = .ok (out ++ reqLine m k, ctrlRemove m k) := by
  simp [requiredStep, getKey, reqLine, writeEntry, h, String.append_assoc]

theorem requiredStep_missing (out : String) (m : Ctrl) (k : String)
    (h : ctrlGet m k = none) :
    requiredStep (out, m) k = .error (k ++ " not found in control file") := by
  simp [requiredStep, getKey, h]

theorem optLine_remove_ne (m : Ctrl) (k k' : String) (h : k' ≠ k) :
    optLine (ctrlRemove m k) k' = optLine m k' := by
  simp [optLine, ctrlGet_remove_ne m k k' h]

theorem reqLine_remove_ne (m : Ctrl) (k k' : String) (h : k' ≠ k) :
    reqLine (ctrlRemove m k) k' = reqLine m k' := by
  simp [reqLine, ctrlGet_remove_ne m k k' h]

/-- Characterization of generate_entry: it fails with a message naming the
first missing required field, and otherwise produces exactly the stanza in
the claimed fixed field order. -/
theorem generate_entry_eq (e : PackageEntry) (origin : String) (bugs : Option String) :
    generate_entry e origin bugs =
      match firstMissingKey e.control with
      | some k => .error (k ++ " not found in control file")
      | none => .ok (claimStanza e origin bugs) := by
  cases h1 : ctrlGet e.control "Package" with
  | none =>
    simp [generate_entry, requiredStep_missing _ _ _ h1, firstMissingKey, requiredKeys,
      h1, Bind.bind, Except.bind, Pure.pure, Except.pure]
  | some v1 =>
  cases h2 : ctrlGet e.control "Architecture" with
  | none =>
    simp [generate_entry, requiredStep_view _ _ _ _ h1, optionalStep_view,
      requiredStep_missing, ctrlGet_remove_ne, h2, firstMissingKey, requiredKeys, h1,
      Bind.bind, Except.bind, Pure.pure, Except.pure]
  | some v2 =>
  cases h3 : ctrlGet e.control "Version" with
  | none =>
    simp [generate_entry, requiredStep_view, optionalStep_view,
      requiredStep_missing, ctrlGet_remove_ne, h1, h2, h3, firstMissingKey,
      requiredKeys, Bind.bind, Except.bind, Pure.pure, Except.pure]
  | some v3 =>
  cases h4 : ctrlGet e.control "Priority" with
  | none =>
    simp [generate_entry, requiredStep_view, optionalStep_view,
      requiredStep_missing, ctrlGet_remove_ne, h1, h2, h3, h4, firstMissingKey,
      requiredKeys, Bind.bind, Except.bind, Pure.pure, Except.pure]
  | some v4 =>
  cases h5 : ctrlGet e.control "Section" with
  | none =>
    simp [generate_entry, requiredStep_view, optionalStep_view,
      requiredStep_missing, ctrlGet_remove_ne, h1, h2, h3, h4, h5, firstMissingKey,
      requiredKeys, Bind.bind, Except.bind, Pure.pure, Except.pure]
  | some v5 =>
  cases h6 : ctrlGet e.control "Maintainer" with
  | none =>
    simp [generate_entry, requiredStep_view, optionalStep_view,
      requiredStep_missing, ctrlGet_remove_ne, h1, h2, h3, h4, h5, h6, firstMissingKey,
      requiredKeys, Bind.bind, Except.bind, Pure.pure, Except.pure]
  | some v6 =>
  cases h7 : ctrlGet e.control "Installed-Size" with
  | none =>
    simp [generate_entry, requiredStep_view, optionalStep_view,
      requiredStep_missing, ctrlGet_remove_ne, h1, h2, h3, h4, h5, h6, h7,
      firstMissingKey, requiredKeys, Bind.bind, Except.bind, Pure.pure, Except.pure]
  | some v7 =>
    cases bugs with
    | none =>
      simp [generate_entry, requiredStep_view, optionalStep_view,
        requiredStep_missing, ctrlGet_remove_ne, optLine_remove_ne, reqLine_remove_ne,
        h1, h2, h3, h4, h5, h6, h7, firstMissingKey, requiredKeys,
        claimStanza, stanzaBeforeDescription, stanzaAfterDescription, reqLine, optLine,
        writeEntry, Bind.bind, Except.bind, Pure.pure, Except.pure, String.append_assoc,
        -String.reduceAppend]
    | some b =>
      simp [generate_entry, requiredStep_view, optionalStep_view,
        requiredStep_missing, ctrlGet_remove_ne, optLine_remove_ne, reqLine_remove_ne,
        h1, h2, h3, h4, h5, h6, h7, firstMissingKey, requiredKeys,
        claimStanza, stanzaBeforeDescription, stanzaAfterDescription, reqLine, optLine,
        writeEntry, Bind.bind, Except.bind, Pure.pure, Except.pure, String.append_assoc,
        -String.reduceAppend]

theorem firstLine_of_ne_empty (v : String) (h : v ≠ "") :
    firstLine v = some (firstLineD v) := by
  have hd : ¬ v.data.isEmpty := by
    cases v with
    | mk l =>
      cases l with
      | nil => exact absurd rfl h
      | cons c cs => simp [List.isEmpty]
  cases hf : firstLine v with
  | none =>
    unfold firstLine at hf
    simp only [hd, Bool.false_eq_true, if_false] at hf
    split at hf <;> simp at hf
  | some l => simp [firstLineD, hf]

theorem no_newline_in_firstLineD (v : String) : '\n' ∉ (firstLineD v).data := by
  intro hmem
  unfold firstLineD firstLine at hmem
  by_cases hd : v.data.isEmpty
  · simp [hd] at hmem
  · simp only [hd, Bool.false_eq_true, if_false] at hmem
    by_cases hl : (v.data.takeWhile (fun c => c != '\n')).length < v.data.length
    · simp only [hl, if_true, Option.getD_some] at hmem
      have : '\n' ∈ v.data.takeWhile (fun c => c != '\n') := by
        have hsub := List.dropLast_subset (v.data.takeWhile (fun c => c != '\n'))
        unfold stripCR at hmem
        rcases hgl : (v.data.takeWhile (fun c => c != '\n')).getLast? with _ | c
        · simpa [hgl] using hmem
        · by_cases hc : c = '\r'
          · simp only [hgl, hc, if_true] at hmem
            exact hsub hmem
          · simpa [hgl, hc] using hmem
      have := List.mem_takeWhile_imp this
      simp at this
    · simp only [hl, if_false] at hmem
      have := List.mem_takeWhile_imp (by simpa using hmem)
      simp at this

theorem ctrlGet_mem (m : Ctrl) (k v : String) (h : ctrlGet m k = some v) :
    (k, v) ∈ m := by
  induction m with
  | nil => simp [ctrlGet] at h
  | cons p rest ih =>
    cases p with
    | mk k0 v0 =>
      by_cases hk : k0 = k
      · simp only [ctrlGet, hk, if_true, Option.some.injEq] at h
        subst hk; subst h
        exact List.mem_cons_self _ _
      · simp only [ctrlGet, hk, if_false] at h
        exact List.mem_cons_of_mem _ (ih h)

theorem firstMissingKey_eq_none_iff (m : Ctrl) :
    firstMissingKey m = none ↔ ∀ k ∈ requiredKeys, (ctrlGet m k).isSome := by
  unfold firstMissingKey
  rw [List.find?_eq_none]
  constructor
  · intro h k hk
    have := h k hk
    cases hg : ctrlGet m k with
    | none => simp [hg] at this
    | some v => simp
  · intro h k hk
    have := h k hk
    cases hg : ctrlGet m k with
    | none => rw [hg] at this; simp at this
    | some v => simp [hg]

/-- Entry whose control map holds every required field and a Homepage
field that is present but carries the empty value, as inner_control
produces for a control line reading Homepage with nothing after the
colon. -/
def emptyHomepageEntry : PackageEntry :=
  { control := [("Package", "pkg"), ("Architecture", "amd64"), ("Version", "1.0"),
      ("Priority", "optional"), ("Section", "utils"), ("Maintainer", "M"),
      ("Installed-Size", "10"), ("Homepage", "")],
    filename := "f", size := 0,
    md5sum := "", sha1 := "", sha256 := "", sha512 := "" }

/-- C1 counterexample: the claim says every field of the control map
emits exactly one Key-colon-value line and only optional fields absent
from the map produce no line.  Here Homepage is present in the map (with
the empty value), all required fields are present, yet the serialized
stanza contains no Homepage line at all: value.lines().next() is None on
the empty string, so optional_map! writes nothing. -/
theorem generate_entry_counterexample :
    ctrlGet emptyHomepageEntry.control "Homepage" = some "" ∧
    generate_entry emptyHomepageEntry "Org" none =
      .ok ("Package: pkg\nArchitecture: amd64\nVersion: 1.0\nPriority: optional\nSection: utils\nOrigin: Org\nMaintainer: M\nInstalled-Size: 10\nFilename: f\nSize: 0\nMD5sum: \nSHA1: \nSHA256: \nSHA512: \n") := by
  constructor <;> rfl

/-- C1 amended: for every PackageEntry whose control map contains all
required fields, generate_entry succeeds and emits exactly the stanza
claimStanza: the fields in the fixed order Package, Package-Type?,
Architecture, Version, Multi-Arch?, Auto-Built-Package?, Priority,
Section, Origin, Maintainer, Installed-Size, Provides?, Pre-Depends?,
Depends?, Recommends?, Suggests?, Conflicts?, Breaks?, Replaces?, Bugs?,
Filename, Size, MD5sum, SHA1, SHA256, SHA512, Homepage?, Description?,
License?, Vendor?, Build-Ids?, where an optional field emits exactly one
Key-colon-value line holding the first line of its value when it is
present with a non-empty value, and no line at all when it is absent
from the control map OR present with the empty value; the Origin line
holds the configured origin argument, not a value read from the
archive. -/
theorem generate_entry_fixed_order (e : PackageEntry) (origin : String)
    (bugs : Option String)
    (hreq : ∀ k ∈ requiredKeys, (ctrlGet e.control k).isSome) :
    generate_entry e origin bugs = .ok (claimStanza e origin bugs) ∧
    (∀ k v, ctrlGet e.control k = some v → v ≠ "" →
      optLine e.control k = k ++ ": " ++ firstLineD v ++ "\n") ∧
    (∀ k, ctrlGet e.control k = none → optLine e.control k = "") ∧
    (∀ k, ctrlGet e.control k = some "" → optLine e.control k = "") := by
  refine ⟨?_, ?_, ?_, ?_⟩
  · rw [generate_entry_eq]
    rw [(firstMissingKey_eq_none_iff e.control).mpr hreq]
  · intro k v hv hne
    simp [optLine, hv, firstLine_of_ne_empty v hne, String.append_assoc]
  · intro k hk
    simp [optLine, hk]
  · intro k hk
    simp [optLine, hk, firstLine]

/-- Witness for generate_entry_fixed_order at a concrete entry holding
exactly the required fields plus a Homepage. -/
def sampleEntry : PackageEntry :=
  { control := [("Package", "pkg"), ("Architecture", "amd64"), ("Version", "1.0"),
      ("Priority", "optional"), ("Section", "utils"), ("Maintainer", "M <m@x>"),
      ("Installed-Size", "10"), ("Homepage", "https://x")],
    filename := "pool/b/p/pkg_1.0_amd64.deb",
    size := 5,
    md5sum := "md5", sha1 := "sha1", sha256 := "sha256", sha512 := "sha512" }

theorem generate_entry_fixed_order_witness :
    generate_entry sampleEntry "Pop!_OS" none =
      .ok (claimStanza sampleEntry "Pop!_OS" none) :=
  (generate_entry_fixed_order sampleEntry "Pop!_OS" none (by decide)).1

/-- C8: generate_entry fails exactly when one of the required fields
Package, Architecture, Version, Priority, Section, Maintainer,
Installed-Size is missing, with an error message naming the first missing
field in consumption order, and succeeds whenever all required fields are
present, regardless of which optional fields are absent. -/
theorem generate_entry_required_fields (e : PackageEntry) (origin : String)
    (bugs : Option String) :
    (∀ k, firstMissingKey e.control = some k →
      k ∈ requiredKeys ∧ ctrlGet e.control k = none ∧
      generate_entry e origin bugs = .error (k ++ " not found in control file")) ∧
    ((∀ k ∈ requiredKeys, (ctrlGet e.control k).isSome) →
      (generate_entry e origin bugs).isOk) ∧
    (firstMissingKey e.control = none ↔
      ∀ k ∈ requiredKeys, (ctrlGet e.control k).isSome) := by
  refine ⟨?_, ?_, firstMissingKey_eq_none_iff e.control⟩
  · intro k hk
    refine ⟨List.mem_of_find?_eq_some hk, ?_, ?_⟩
    · have := List.find?_some hk
      simp only [Option.isNone_iff_eq_none] at this
      cases hg : ctrlGet e.control k with
      | none => rfl
      | some v => rw [hg] at this; simp at this
    · rw [generate_entry_eq, hk]
  · intro h
    rw [generate_entry_eq, (firstMissingKey_eq_none_iff e.control).mpr h]
    rfl

/-- Witness entry for the failure branch: the control map lacks Package. -/
def missingPackageEntry : PackageEntry :=
  { control := [("Architecture", "amd64"), ("Version", "1.0"),
      ("Priority", "optional"), ("Section", "utils"), ("Maintainer", "M"),
      ("Installed-Size", "10")],
    filename := "f", size := 0,
    md5sum := "", sha1 := "", sha256 := "", sha512 := "" }

theorem generate_entry_required_fields_witness :
    generate_entry missingPackageEntry "o" none =
      .error ("Package" ++ " not found in control file") ∧
    (generate_entry sampleEntry "o" none).isOk :=
  ⟨((generate_entry_required_fields missingPackageEntry "o" none).1
      "Package" (by decide)).2.2,
   (generate_entry_required_fields sampleEntry "o" none).2.1 (by decide)⟩

/-- C9: when an optional field value (such as the Description folded by
control parsing) contains embedded newlines, generate_entry writes only
its first line into the stanza: the emitted Description line holds
firstLineD of the value, which contains no newline and is a proper
truncation of the multi-line value. -/
theorem generate_entry_first_line_only (e : PackageEntry) (origin : String)
    (bugs : Option String)
    (hreq : ∀ k ∈ requiredKeys, (ctrlGet e.control k).isSome)
    (v : String) (hd : ctrlGet e.control "Description" = some v)
    (hnl : '\n' ∈ v.data) :
    generate_entry e origin bugs =
      .ok (stanzaBeforeDescription e origin bugs
        ++ ("Description" ++ ": " ++ firstLineD v ++ "\n")
        ++ stanzaAfterDescription e) ∧
    '\n' ∉ (firstLineD v).data ∧ firstLineD v ≠ v := by
  have hne : v ≠ "" := by
    intro hempty
    subst hempty
    simp at hnl
  refine ⟨?_, no_newline_in_firstLineD v, ?_⟩
  · rw [generate_entry_eq, (firstMissingKey_eq_none_iff e.control).mpr hreq]
    have : optLine e.control "Description" =
        "Description" ++ ": " ++ firstLineD v ++ "\n" := by
      simp [optLine, hd, firstLine_of_ne_empty v hne, String.append_assoc]
    simp [claimStanza, this, String.append_assoc]
  · intro heq
    exact no_newline_in_firstLineD v (by rw [heq]; exact hnl)

/-- Witness entry with a multi-line Description. -/
def multilineEntry : PackageEntry :=
  { control := [("Package", "pkg"), ("Architecture", "amd64"), ("Version", "1.0"),
      ("Priority", "optional"), ("Section", "utils"), ("Maintainer", "M"),
      ("Installed-Size", "10"), ("Description", "summary\n continuation")],
    filename := "f", size := 0,
    md5sum := "", sha1 := "", sha256 := "", sha512 := "" }

theorem generate_entry_first_line_only_witness :
    generate_entry multilineEntry "o" none =
      .ok (stanzaBeforeDescription multilineEntry "o" none
        ++ ("Description" ++ ": " ++ firstLineD "summary\n continuation" ++ "\n")
        ++ stanzaAfterDescription multilineEntry) ∧
    '\n' ∉ (firstLineD "summary\n continuation").data ∧
    firstLineD "summary\n continuation" ≠ "summary\n continuation" :=
  generate_entry_first_line_only multilineEntry "o" none (by decide)
    "summary\n continuation" (by decide) (by decide)

/-! ### Control-file parsing
(src/debian/archive.rs, Archive::inner_control lines 126-176)

The line loop of inner_control over the lines of the control file: each
line containing a colon is split at the first colon into key and trimmed
value; the first Description field additionally folds the immediately
following lines that start with a space into its value, joined by
newlines; every other field keeps only its own line.  The tar/gzip/xz
layers around the control file only deliver its bytes and are modelled in
the archive-scan section. -/

/-- Model of Rust str::trim on the value part of a control line. -/
def trimStr (s : String) : String :=
  ⟨((s.data.dropWhile Char.isWhitespace).reverse.dropWhile Char.isWhitespace).reverse⟩

/-- Split a physical line at its first colon: key before, trimmed value
after; lines without a colon are skipped by the parser. -/
def lineKV (line : String) : Option (String × String) :=
  if line.data.contains ':' then
    some (⟨line.data.takeWhile (fun c => c != ':')⟩,
          trimStr ⟨(line.data.dropWhile (fun c => c != ':')).drop 1⟩)
  else none

/-- BTreeMap::insert: replace the value of an existing key, or add the
pair. -/
def insertKV (m : Ctrl) (k v : String) : Ctrl :=
  match m with
  | [] => [(k, v)]
  | (k0, v0) :: rest => if k0 = k then (k0, v) :: rest else (k0, v0) :: insertKV rest k v

/-- Does a physical line begin with a space (continuation line test)? -/
def startsWithSpace (line : String) : Bool :=
  match line.data with
  | ' ' :: _ => true
  | _ => false

/-- One non-folding parser step: insert the key-value pair of a line, or
skip a line without a colon. -/
def plainStep (m : Ctrl) (line : String) : Ctrl :=
  match lineKV line with
  | some (k, v) => insertKV m k v
  | none => m

/-- The parsing loop of inner_control over the physical lines of the
control file.  The flag mirrors description_unset: only the first
Description field folds its continuation lines. -/
def parseGo (du : Bool) (ls : List String) (m : Ctrl) : Ctrl :=
  match ls with
  | [] => m
  | line :: rest =>
    match lineKV line with
    | none => parseGo du rest m
    | some (k, v) =>
      if du ∧ k = "Description" then
        let conts := rest.takeWhile startsWithSpace
        let rest2 := rest.dropWhile startsWithSpace
        parseGo false rest2
          (insertKV m k (v ++ String.join (conts.map (fun c => "\n" ++ c))))
      else parseGo du rest (insertKV m k v)
termination_by ls.length
decreasing_by
  all_goals simp_wf
  all_goals
    (have h2 := @List.IsSuffix.length_le _ _ rest (List.dropWhile_suffix startsWithSpace)
     omega)

/-- Model of the control-map extraction of Archive::inner_control, as a
function of the physical lines of the control file. -/
def parseControl (ls : List String) : Ctrl := parseGo true ls []

theorem parseGo_nil (du : Bool) (m : Ctrl) : parseGo du [] m = m := by
  simp [parseGo]

theorem parseGo_cons_none (du : Bool) (line : String) (rest : List String) (m : Ctrl)
    (h : lineKV line = none) :
    parseGo du (line :: rest) m = parseGo du rest m := by
  simp [parseGo, h]

theorem parseGo_cons_desc (line : String) (rest : List String) (m : Ctrl) (v : String)
    (h : lineKV line = some ("Description", v)) :
    parseGo true (line :: rest) m =
      parseGo false (rest.dropWhile startsWithSpace)
        (insertKV m "Description"
          (v ++ String.join ((rest.takeWhile startsWithSpace).map (fun c => "\n" ++ c)))) := by
  simp [parseGo, h]

theorem parseGo_cons_plain (du : Bool) (line : String) (rest : List String) (m : Ctrl)
    (k v : String) (h : lineKV line = some (k, v)) (hc : ¬ (du ∧ k = "Description")) :
    parseGo du (line :: rest) m = parseGo du rest (insertKV m k v) := by
  simp only [parseGo, h]
  rw [if_neg hc]

theorem ctrlGet_insert_self (m : Ctrl) (k v : String) :
    ctrlGet (insertKV m k v) k = some v := by
  induction m with
  | nil => simp [insertKV, ctrlGet]
  | cons p rest ih =>
    cases p with
    | mk k0 v0 =>
      by_cases hk : k0 = k
      · simp [insertKV, hk, ctrlGet]
      · simp [insertKV, hk, ctrlGet, ih]

theorem ctrlGet_insert_ne (m : Ctrl) (k v k' : String) (h : k' ≠ k) :
    ctrlGet (insertKV m k v) k' = ctrlGet m k' := by
  have hne : ¬ (k = k') := fun hh => h hh.symm
  induction m with
  | nil => simp only [insertKV, ctrlGet]; rw [if_neg hne]
  | cons p rest ih =>
    cases p with
    | mk k0 v0 =>
      by_cases hk : k0 = k
      · subst hk
        simp only [insertKV, if_pos rfl, ctrlGet]
        rw [if_neg hne, if_neg hne]
      · simp only [insertKV, if_neg hk, ctrlGet]
        by_cases hk' : k0 = k'
        · rw [if_pos hk', if_pos hk']
        · rw [if_neg hk', if_neg hk']
          exact ih

/-- Processing lines none of which carries the key k never changes the
value recorded for k, whatever the description flag is. -/
theorem ctrlGet_parseGo_no_key_aux (n : Nat) :
    ∀ (du : Bool) (ls : List String) (m : Ctrl) (k : String), ls.length ≤ n →
    (∀ r ∈ ls, ∀ kv, lineKV r = some kv → kv.1 ≠ k) →
    ctrlGet (parseGo du ls m) k = ctrlGet m k := by
  induction n with
  | zero =>
    intro du ls m k hlen _
    cases ls with
    | nil => rw [parseGo_nil]
    | cons a b => simp at hlen
  | succ n ih =>
    intro du ls m k hlen hk
    cases ls with
    | nil => rw [parseGo_nil]
    | cons line rest =>
      have hrest : ∀ r ∈ rest, ∀ kv, lineKV r = some kv → kv.1 ≠ k :=
        fun r hr => hk r (List.mem_cons_of_mem _ hr)
      have hlen2 : rest.length ≤ n := by simpa using hlen
      cases hkv : lineKV line with
      | none =>
        rw [parseGo_cons_none _ _ _ _ hkv]
        exact ih du rest m k hlen2 hrest
      | some kv =>
        cases kv with
        | mk k0 v =>
          have hk0 : k0 ≠ k := by
            have := hk line (List.mem_cons_self _ _) (k0, v) hkv
            simpa using this
          by_cases hcond : du ∧ k0 = "Description"
          · obtain ⟨hdu, hdesc⟩ := hcond
            subst hdesc
            have hdu2 : du = true := hdu
            subst hdu2
            rw [parseGo_cons_desc _ _ _ _ hkv]
            have hlen3 : (rest.dropWhile startsWithSpace).length ≤ n := by
              have := @List.IsSuffix.length_le _ _ rest
                (List.dropWhile_suffix startsWithSpace)
              omega
            rw [ih false (rest.dropWhile startsWithSpace) _ k hlen3
              (fun r hr => hrest r ((List.dropWhile_suffix startsWithSpace).subset hr))]
            exact ctrlGet_insert_ne _ _ _ _ (fun hh => hk0 hh.symm)
          · rw [parseGo_cons_plain _ _ _ _ _ _ hkv hcond]
            rw [ih du rest _ k hlen2 hrest]
            exact ctrlGet_insert_ne _ _ _ _ (fun hh => hk0 hh.symm)

theorem ctrlGet_parseGo_no_key (du : Bool) (ls : List String) (m : Ctrl) (k : String)
    (hk : ∀ r ∈ ls, ∀ kv, lineKV r = some kv → kv.1 ≠ k) :
    ctrlGet (parseGo du ls m) k = ctrlGet m k :=
  ctrlGet_parseGo_no_key_aux ls.length du ls m k (le_refl _) hk

/-- Processing a block of lines whose keys are never Description reduces
to a plain left fold, leaving the description flag untouched. -/
theorem parseGo_append_plain (pre ls : List String) (m : Ctrl)
    (hpre : ∀ p ∈ pre, ∀ kv, lineKV p = some kv → kv.1 ≠ "Description") :
    parseGo true (pre ++ ls) m = parseGo true ls (pre.foldl plainStep m) := by
  induction pre generalizing m with
  | nil => rfl
  | cons line pre ih =>
    have hline := hpre line (List.mem_cons_self _ _)
    have htail : ∀ p ∈ pre, ∀ kv, lineKV p = some kv → kv.1 ≠ "Description" :=
      fun p hp => hpre p (List.mem_cons_of_mem _ hp)
    rw [List.cons_append]
    cases hkv : lineKV line with
    | none =>
      rw [parseGo_cons_none _ _ _ _ hkv]
      simp only [List.foldl_cons, plainStep, hkv]
      exact ih _ htail
    | some kv =>
      cases kv with
      | mk k0 v =>
        have hk0 : ¬ (True ∧ k0 = "Description") := by
          simpa using hline (k0, v) hkv
        rw [parseGo_cons_plain _ _ _ _ _ _ hkv (by simpa using hk0)]
        simp only [List.foldl_cons, plainStep, hkv]
        exact ih _ htail

theorem takeWhile_append_all {α : Type} (p : α → Bool) (l1 l2 : List α)
    (h1 : ∀ x ∈ l1, p x = true) (h2 : ∀ x, l2.head? = some x → p x = false) :
    (l1 ++ l2).takeWhile p = l1 ∧ (l1 ++ l2).dropWhile p = l2 := by
  induction l1 with
  | nil =>
    cases l2 with
    | nil => simp
    | cons x l2 =>
      have := h2 x rfl
      simp [List.takeWhile, List.dropWhile, this]
  | cons x l1 ih =>
    have hx := h1 x (List.mem_cons_self _ _)
    have := ih (fun y hy => h1 y (List.mem_cons_of_mem _ hy))
    simp [List.takeWhile, List.dropWhile, hx, this.1, this.2]

/-- C2: folding of a multi-line Description and first-line-only treatment
of every other field by the control parser of Archive::inner_control.
First part: a Description line followed by continuation lines starting
with a space yields a Description value equal to the trimmed first-line
value joined with each raw continuation line by a newline.  Second part:
any other field receives exactly the trimmed value of its own physical
line, even when indented continuation lines follow it. -/
theorem control_description_folding :
    (∀ (pre conts rest : List String) (dline v : String),
      lineKV dline = some ("Description", v) →
      (∀ p ∈ pre, ∀ kv, lineKV p = some kv → kv.1 ≠ "Description") →
      (∀ c ∈ conts, startsWithSpace c = true) →
      (∀ r, rest.head? = some r → startsWithSpace r = false) →
      (∀ r ∈ rest, ∀ kv, lineKV r = some kv → kv.1 ≠ "Description") →
      ctrlGet (parseControl (pre ++ dline :: (conts ++ rest))) "Description" =
        some (v ++ String.join (conts.map (fun c => "\n" ++ c)))) ∧
    (∀ (pre conts rest : List String) (kline k v : String),
      lineKV kline = some (k, v) →
      k ≠ "Description" →
      (∀ p ∈ pre, ∀ kv, lineKV p = some kv → kv.1 ≠ "Description") →
      (∀ p ∈ pre, ∀ kv, lineKV p = some kv → kv.1 ≠ k) →
      (∀ c ∈ conts, startsWithSpace c = true) →
      (∀ r ∈ conts ++ rest, ∀ kv, lineKV r = some kv → kv.1 ≠ k) →
      ctrlGet (parseControl (pre ++ kline :: (conts ++ rest))) k = some v) := by
  constructor
  · intro pre conts rest dline v hd hpre hconts hrest hrest2
    unfold parseControl
    rw [parseGo_append_plain pre _ _ hpre]
    rw [parseGo_cons_desc _ _ _ _ hd]
    have hsplit := takeWhile_append_all startsWithSpace conts rest hconts hrest
    rw [hsplit.1, hsplit.2]
    rw [ctrlGet_parseGo_no_key _ _ _ _ hrest2]
    exact ctrlGet_insert_self _ _ _
  · intro pre conts rest kline k v hk hkd hpre hprek hconts hcrk
    unfold parseControl
    rw [parseGo_append_plain pre _ _ hpre]
    rw [parseGo_cons_plain _ _ _ _ _ _ hk (by simp [hkd])]
    rw [ctrlGet_parseGo_no_key _ _ _ _ hcrk]
    exact ctrlGet_insert_self _ _ _

/-- Witness for control_description_folding: a concrete control file with
a folded Description and a Homepage followed by an indented line. -/
theorem control_description_folding_witness :
    ctrlGet (parseControl
        (["Package: pkg"] ++ "Description: short summary" ::
          ([" extended line one", " extended line two"] ++ ["Section: utils"])))
      "Description" =
      some ("short summary" ++
        String.join ([" extended line one", " extended line two"].map
          (fun c => "\n" ++ c))) ∧
    ctrlGet (parseControl
        (["Package: pkg"] ++ "Homepage: https://x" ::
          ([" indented"] ++ ["Section: utils"])))
      "Homepage" = some "https://x" :=
  ⟨control_description_folding.1 ["Package: pkg"]
      [" extended line one", " extended line two"] ["Section: utils"]
      "Description: short summary" "short summary" (by decide) (by decide)
      (by decide) (by decide) (by decide),
   control_description_folding.2 ["Package: pkg"] [" indented"] ["Section: utils"]
      "Homepage: https://x" "Homepage" "https://x" (by decide) (by decide)
      (by decide) (by decide) (by decide) (by decide)⟩

/-! ### Contents serialization
(src/debian/dist_files/mod.rs, ContentsIterator lines 149-175 and
DistFiles::compress_and_release lines 42-66; the same line shape appears
in ContentIterator of src/repo/generate.rs lines 185-202)

File paths are byte lists (OsStr bytes); a Contents line is the path with
a leading dot-slash stripped, two spaces, the package identifier and a
newline.  The Rust code slices the first two bytes of the path before
testing for the dot-slash prefix, which panics when the path is shorter
than two bytes; the panic is modelled by none. -/

/-- Byte view of a string (paths and identifiers are ASCII in practice). -/
def strBytes (s : String) : List Nat := s.data.map Char.toNat

/-- Strip a leading "./" (bytes 46, 47) from a path. -/
def stripDotSlash (p : List Nat) : List Nat :=
  if p.take 2 = [46, 47] then p.drop 2 else p

/-- One Contents line, as built by ContentsIterator::next: none models the
out-of-range panic of the two-byte slice on a short path. -/
def serializeContentsLine (path : List Nat) (pkg : String) : Option (List Nat) :=
  if path.length < 2 then none
  else some (stripDotSlash path ++ [32, 32] ++ strBytes pkg ++ [10])

/-- The line a pair would serialize to, ignoring the panic case. -/
def contentsLineOf (pr : List Nat × String) : List Nat :=
  stripDotSlash pr.1 ++ [32, 32] ++ strBytes pr.2 ++ [10]

/-- A ContentsEntry: package identifier plus the file paths of the data
archive (directories excluded by the data walk). -/
structure ContentsEntry where
  package : String
  files : List (List Nat)

/-- The (path, package) pairs in the order ContentsIterator emits them:
all files of the first entry, then all files of the second, and so on. -/
def contentsPairs (entries : List ContentsEntry) : List (List Nat × String) :=
  entries.flatMap (fun e => e.files.map (fun p => (p, e.package)))

/-- Sequence of optional results; none as soon as one element fails,
modelling a panic aborting the collection. -/
def optTraverse {α β : Type} (f : α → Option β) : List α → Option (List β)
  | [] => some []
  | x :: xs =>
    match f x, optTraverse f xs with
    | some y, some ys => some (y :: ys)
    | _, _ => none

/-- All serialized Contents lines for one architecture, in emission order. -/
def contentsLines (entries : List ContentsEntry) : Option (List (List Nat)) :=
  optTraverse (fun pr => serializeContentsLine pr.1 pr.2) (contentsPairs entries)

/-- The sort of compress_and_release: par_sort_unstable_by with byte-wise
comparison of whole lines, modelled by insertion sort under the
lexicographic order on byte lists. -/
def sortLines (ls : List (List Nat)) : List (List Nat) :=
  ls.insertionSort (· ≤ ·)

/-- The Contents-arch body produced by the contents branch of
DistFiles::compress_and_release: collect every line of every component of
the architecture, then sort the whole collection. -/
def compressContentsArch (entries : List ContentsEntry) : Option (List (List Nat)) :=
  (contentsLines entries).map sortLines

theorem optTraverse_eq_map {α β : Type} (f : α → Option β) (g : α → β) (l : List α)
    (h : ∀ x ∈ l, f x = some (g x)) :
    optTraverse f l = some (l.map g) := by
  induction l with
  | nil => rfl
  | cons x xs ih =>
    simp only [optTraverse, h x (List.mem_cons_self _ _),
      ih (fun y hy => h y (List.mem_cons_of_mem _ hy)), List.map_cons]

theorem contentsLines_eq_map (entries : List ContentsEntry)
    (h : ∀ pr ∈ contentsPairs entries, 2 ≤ pr.1.length) :
    contentsLines entries = some ((contentsPairs entries).map contentsLineOf) := by
  apply optTraverse_eq_map
  intro pr hpr
  have := h pr hpr
  simp [serializeContentsLine, contentsLineOf, Nat.not_lt.mpr this]

/-- C5: with every path at least two bytes long, the Contents body for an
architecture is exactly one line per (path, package) pair in the shape
stripped-path, two spaces, package identifier, newline; the lines are
sorted lexicographically across the whole architecture; and the output
depends only on the multiset of pairs, not on the parallel construction
order of the entries. -/
theorem contents_lines_sorted (entries : List ContentsEntry)
    (hlen : ∀ pr ∈ contentsPairs entries, 2 ≤ pr.1.length) :
    ∃ L, compressContentsArch entries = some L ∧
      L.Perm ((contentsPairs entries).map contentsLineOf) ∧
      L.Sorted (· ≤ ·) ∧
      (∀ entries2, (contentsPairs entries2).Perm (contentsPairs entries) →
        compressContentsArch entries2 = some L) := by
  refine ⟨sortLines ((contentsPairs entries).map contentsLineOf), ?_, ?_, ?_, ?_⟩
  · simp [compressContentsArch, contentsLines_eq_map entries hlen]
  · exact List.perm_insertionSort _ _
  · exact List.sorted_insertionSort _ _
  · intro entries2 hperm
    have hlen2 : ∀ pr ∈ contentsPairs entries2, 2 ≤ pr.1.length :=
      fun pr hpr => hlen pr (hperm.subset hpr)
    simp only [compressContentsArch, contentsLines_eq_map entries2 hlen2,
      Option.map_some']
    congr 1
    apply List.eq_of_perm_of_sorted
      (((List.perm_insertionSort _ _).trans (hperm.map contentsLineOf)).trans
        (List.perm_insertionSort (· ≤ ·) _).symm)
      (List.sorted_insertionSort _ _) (List.sorted_insertionSort _ _)

/-- Witness entries: two components of one architecture, unsorted input. -/
def witnessEntriesA : List ContentsEntry :=
  [{ package := "utils/zeta", files := [strBytes "./usr/bin/z", strBytes "usr/bin/a"] },
   { package := "utils/alpha", files := [strBytes "usr/bin/m"] }]

/-- Witness entries: the same pairs in another parallel order. -/
def witnessEntriesB : List ContentsEntry :=
  [{ package := "utils/alpha", files := [strBytes "usr/bin/m"] },
   { package := "utils/zeta", files := [strBytes "usr/bin/a", strBytes "./usr/bin/z"] }]

theorem contents_lines_sorted_witness :
    ∃ L, compressContentsArch witnessEntriesA = some L ∧
      L.Perm ((contentsPairs witnessEntriesA).map contentsLineOf) ∧
      L.Sorted (· ≤ ·) ∧
      (∀ entries2, (contentsPairs entries2).Perm (contentsPairs witnessEntriesA) →
        compressContentsArch entries2 = some L) :=
  contents_lines_sorted witnessEntriesA (by decide)

theorem optTraverse_isSome_iff {α β : Type} (f : α → Option β) (l : List α) :
    (optTraverse f l).isSome ↔ ∀ x ∈ l, (f x).isSome := by
  induction l with
  | nil => simp [optTraverse]
  | cons x xs ih =>
    constructor
    · intro h
      unfold optTraverse at h
      cases hx : f x with
      | none => rw [hx] at h; simp at h
      | some y =>
        rw [hx] at h
        cases hxs : optTraverse f xs with
        | none => rw [hxs] at h; simp at h
        | some ys =>
          intro z hz
          rcases List.mem_cons.mp hz with hz | hz
          · subst hz; simp [hx]
          · exact (ih.mp (by simp [hxs])) z hz
    · intro h
      unfold optTraverse
      rcases Option.isSome_iff_exists.mp (h x (List.mem_cons_self _ _)) with ⟨y, hy⟩
      rcases Option.isSome_iff_exists.mp
        (ih.mpr (fun z hz => h z (List.mem_cons_of_mem _ hz))) with ⟨ys, hys⟩
      simp [hy, hys]

theorem serializeContentsLine_isSome_iff (p : List Nat) (pkg : String) :
    (serializeContentsLine p pkg).isSome ↔ 2 ≤ p.length := by
  by_cases h : p.length < 2 <;>
    · simp [serializeContentsLine, h]
      try omega

/-- C10: serializing a Contents line inspects the first two bytes of the
path unconditionally: it succeeds exactly on paths of byte length at
least two, and the out-of-range branch (none) is reached by every shorter
path; consequently the whole Contents collection succeeds exactly when
every path of every entry is at least two bytes long. -/
theorem contents_line_short_path (p : List Nat) (pkg : String)
    (entries : List ContentsEntry) :
    (serializeContentsLine p pkg = none ↔ p.length < 2) ∧
    ((contentsLines entries).isSome ↔
      ∀ pr ∈ contentsPairs entries, 2 ≤ pr.1.length) := by
  constructor
  · constructor
    · intro h
      by_contra hlt
      have := (serializeContentsLine_isSome_iff p pkg).mpr (by omega)
      rw [h] at this
      simp at this
    · intro h
      simp [serializeContentsLine, h]
  · rw [contentsLines, optTraverse_isSome_iff]
    constructor
    · intro h pr hpr
      exact (serializeContentsLine_isSome_iff pr.1 pr.2).mp (h pr hpr)
    · intro h pr hpr
      exact (serializeContentsLine_isSome_iff pr.1 pr.2).mpr (h pr hpr)

/-- Witness for the short-path branch: a one-byte path fails, a two-byte
path succeeds. -/
theorem contents_line_short_path_witness :
    (serializeContentsLine [47] "p" = none ↔ ([47] : List Nat).length < 2) ∧
    ((contentsLines witnessEntriesA).isSome ↔
      ∀ pr ∈ contentsPairs witnessEntriesA, 2 ≤ pr.1.length) :=
  contents_line_short_path [47] "p" witnessEntriesA

/-! ### Duplicate Contents paths
(src/repo/generate.rs, contents lines 373-379, and the commented-out
duplicate check of src/debian/dist_files/mod.rs lines 25-40)

The apt-ftparchive-based generator collects (path, package) pairs into a
BTreeMap keyed by path; BTreeMap::insert returns the displaced value, and
the code logs "duplicate entry: {old}" naming only the displaced owner,
while the map keeps only the most recent owner of the path.  The newer
DistFiles pipeline has its duplicate check commented out: it emits no
warning and keeps every line. -/

/-- Lookup in the path-keyed file map. -/
def lookupPath (m : List (List Nat × String)) (p : List Nat) : Option String :=
  match m with
  | [] => none
  | (p0, v0) :: rest => if p0 = p then some v0 else lookupPath rest p

/-- Replace the value recorded for a present path. -/
def replacePath (m : List (List Nat × String)) (p : List Nat) (v : String) :
    List (List Nat × String) :=
  match m with
  | [] => []
  | (p0, v0) :: rest =>
    if p0 = p then (p0, v) :: rest else (p0, v0) :: replacePath rest p v

/-- One insertion into the file map of contents(): on a duplicate path the
old owner is displaced and its name (alone) is appended to the warning
log. -/
def mapInsertWarn (st : List (List Nat × String) × List String)
    (pr : List Nat × String) : List (List Nat × String) × List String :=
  match lookupPath st.1 pr.1 with
  | some old => (replacePath st.1 pr.1 pr.2, st.2 ++ [old])
  | none => (st.1 ++ [pr], st.2)

/-- The file map and warning log built by contents() from the collected
(path, package) pairs of one architecture. -/
def contentsFileMap (pairs : List (List Nat × String)) :
    List (List Nat × String) × List String :=
  pairs.foldl mapInsertWarn ([], [])

theorem lookupPath_append (m1 m2 : List (List Nat × String)) (p : List Nat) :
    lookupPath (m1 ++ m2) p =
      match lookupPath m1 p with
      | some v => some v
      | none => lookupPath m2 p := by
  induction m1 with
  | nil => rfl
  | cons q rest ih =>
    cases q with
    | mk p0 v0 =>
      by_cases hp : p0 = p
      · simp [lookupPath, hp]
      · simp [lookupPath, hp, ih]

theorem lookupPath_eq_none_of_not_mem (m : List (List Nat × String)) (p : List Nat)
    (h : p ∉ m.map Prod.fst) :
    lookupPath m p = none := by
  induction m with
  | nil => rfl
  | cons q rest ih =>
    cases q with
    | mk p0 v0 =>
      simp only [List.map_cons, List.mem_cons] at h
      push_neg at h
      have hne : ¬ (p0 = p) := fun hh => h.1 hh.symm
      simp [lookupPath, hne, ih h.2]

theorem replacePath_map_fst (m : List (List Nat × String)) (p : List Nat) (v : String) :
    (replacePath m p v).map Prod.fst = m.map Prod.fst := by
  induction m with
  | nil => rfl
  | cons q rest ih =>
    cases q with
    | mk p0 v0 =>
      by_cases hp : p0 = p <;> simp [replacePath, hp, ih]

theorem lookupPath_replace_self (m : List (List Nat × String)) (p : List Nat)
    (v old : String) (h : lookupPath m p = some old) :
    lookupPath (replacePath m p v) p = some v := by
  induction m with
  | nil => simp [lookupPath] at h
  | cons q rest ih =>
    cases q with
    | mk p0 v0 =>
      by_cases hp : p0 = p
      · simp [replacePath, lookupPath, hp]
      · simp only [lookupPath, hp, if_false] at h
        simp [replacePath, lookupPath, hp, ih h]

/-- Inserting a block of pairs whose paths are fresh and mutually distinct
just appends them, producing no warning. -/
theorem contentsFold_fresh (blk : List (List Nat × String))
    (st : List (List Nat × String) × List String)
    (hfresh : ∀ pr ∈ blk, lookupPath st.1 pr.1 = none)
    (hnodup : (blk.map Prod.fst).Nodup) :
    blk.foldl mapInsertWarn st = (st.1 ++ blk, st.2) := by
  induction blk generalizing st with
  | nil => simp
  | cons pr rest ih =>
    have hpr := hfresh pr (List.mem_cons_self _ _)
    simp only [List.foldl_cons, mapInsertWarn, hpr]
    simp only [List.map_cons, List.nodup_cons] at hnodup
    rw [ih (st.1 ++ [pr], st.2) ?_ hnodup.2]
    · simp
    · intro q hq
      rw [lookupPath_append]
      rw [hfresh q (List.mem_cons_of_mem _ hq)]
      apply lookupPath_eq_none_of_not_mem
      simp only [List.map_cons, List.map_nil, List.mem_singleton]
      intro hqp
      exact hnodup.1 (by rw [← hqp]; exact List.mem_map_of_mem Prod.fst hq)

/-- C4 counterexample: two packages alpha and beta both containing the
path usr/bin/foo.  The claim says a warning names both owning packages
and both lines still appear; the contents() file map instead logs a
warning naming only the displaced owner alpha, and retains only beta's
entry for the path, so alpha's line is dropped from the output. -/
theorem contents_duplicate_counterexample :
    (contentsFileMap
        [(strBytes "usr/bin/foo", "alpha"), (strBytes "usr/bin/foo", "beta")]).2
      = ["alpha"] ∧
    (contentsFileMap
        [(strBytes "usr/bin/foo", "alpha"), (strBytes "usr/bin/foo", "beta")]).1
      = [(strBytes "usr/bin/foo", "beta")] := by
  constructor <;> rfl

/-- C4 amended: in the apt-ftparchive-based contents generator
(repo/generate.rs), a duplicated path produces one non-fatal warning
naming only the previously recorded owning package, and only the most
recently observed package keeps the path in the output map (the earlier
line is replaced, not kept); in the DistFiles pipeline
(debian/dist_files/mod.rs) no duplicate warning is emitted at all -- the
check is commented out -- and both lines appear in the sorted output. -/
theorem contents_duplicate_amended :
    (∀ (l1 l2 l3 : List (List Nat × String)) (p : List Nat) (a b : String),
      ((l1 ++ l2 ++ l3).map Prod.fst).Nodup →
      p ∉ (l1 ++ l2 ++ l3).map Prod.fst →
      (contentsFileMap (l1 ++ (p, a) :: (l2 ++ (p, b) :: l3))).2 = [a] ∧
      lookupPath (contentsFileMap (l1 ++ (p, a) :: (l2 ++ (p, b) :: l3))).1 p
        = some b) ∧
    (∀ (entries : List ContentsEntry) (p : List Nat) (a b : String),
      (p, a) ∈ contentsPairs entries → (p, b) ∈ contentsPairs entries →
      (∀ pr ∈ contentsPairs entries, 2 ≤ pr.1.length) →
      (compressContentsArch entries).isSome ∧
      contentsLineOf (p, a) ∈ (compressContentsArch entries).getD [] ∧
      contentsLineOf (p, b) ∈ (compressContentsArch entries).getD []) := by
  constructor
  · intro l1 l2 l3 p a b hnd hp
    simp only [List.map_append, List.nodup_append] at hnd
    obtain ⟨⟨hnd1, hnd2, hd12⟩, hnd3, hd3⟩ := hnd
    simp only [List.map_append, List.mem_append] at hp
    push_neg at hp
    obtain ⟨⟨hp1, hp2⟩, hp3⟩ := hp
    have hstep1 : contentsFileMap (l1 ++ (p, a) :: (l2 ++ (p, b) :: l3)) =
        ((p, a) :: (l2 ++ (p, b) :: l3)).foldl mapInsertWarn (l1, []) := by
      rw [contentsFileMap, List.foldl_append]
      rw [contentsFold_fresh l1 ([], []) (fun pr _ => rfl) hnd1]
      simp
    rw [hstep1]
    have hstep2 : ((p, a) :: (l2 ++ (p, b) :: l3)).foldl mapInsertWarn (l1, []) =
        (l2 ++ (p, b) :: l3).foldl mapInsertWarn (l1 ++ [(p, a)], []) := by
      rw [List.foldl_cons]
      rw [show mapInsertWarn (l1, []) (p, a) = (l1 ++ [(p, a)], []) from ?_]
      rw [mapInsertWarn]
      rw [lookupPath_eq_none_of_not_mem l1 p hp1]
    rw [hstep2, List.foldl_append]
    have hfresh2 : ∀ pr ∈ l2, lookupPath (l1 ++ [(p, a)]) pr.1 = none := by
      intro q hq
      rw [lookupPath_append]
      rw [lookupPath_eq_none_of_not_mem l1 q.1 (fun hmem =>
        hd12 hmem (List.mem_map_of_mem Prod.fst hq))]
      apply lookupPath_eq_none_of_not_mem
      simp only [List.map_cons, List.map_nil, List.mem_singleton]
      intro hqp
      exact hp2 (hqp ▸ List.mem_map_of_mem Prod.fst hq)
    rw [contentsFold_fresh l2 _ hfresh2 hnd2]
    rw [List.foldl_cons]
    have hlook : lookupPath (l1 ++ [(p, a)] ++ l2) p = some a := by
      rw [lookupPath_append, lookupPath_append]
      rw [lookupPath_eq_none_of_not_mem l1 p hp1]
      simp [lookupPath]
    rw [show mapInsertWarn (l1 ++ [(p, a)] ++ l2, []) (p, b) =
        (replacePath (l1 ++ [(p, a)] ++ l2) p b, [a]) from ?_]
    swap
    · rw [mapInsertWarn, hlook]
      rfl
    have hfresh3 : ∀ pr ∈ l3,
        lookupPath (replacePath (l1 ++ [(p, a)] ++ l2) p b) pr.1 = none := by
      intro q hq
      apply lookupPath_eq_none_of_not_mem
      rw [replacePath_map_fst]
      simp only [List.map_append, List.mem_append, List.map_cons, List.map_nil,
        List.mem_singleton]
      rintro ((hmem | hmem) | hmem)
      · exact hd3 (List.mem_append_left _ hmem) (List.mem_map_of_mem Prod.fst hq)
      · exact hp3 (hmem ▸ List.mem_map_of_mem Prod.fst hq)
      · exact hd3 (List.mem_append_right _ hmem) (List.mem_map_of_mem Prod.fst hq)
    rw [contentsFold_fresh l3 _ hfresh3 hnd3]
    refine ⟨rfl, ?_⟩
    rw [lookupPath_append]
    rw [lookupPath_replace_self _ _ _ a hlook]
  · intro entries p a b ha hb hlen
    have hmap := contentsLines_eq_map entries hlen
    refine ⟨by simp [compressContentsArch, hmap], ?_, ?_⟩ <;>
      · simp only [compressContentsArch, hmap, Option.map_some', Option.getD_some]
        rw [sortLines]
        rw [(List.perm_insertionSort (· ≤ ·) _).mem_iff]
        first
        | exact List.mem_map_of_mem contentsLineOf ha
        | exact List.mem_map_of_mem contentsLineOf hb

/-- Entries for the duplicate witness: two packages sharing one path. -/
def dupEntries : List ContentsEntry :=
  [{ package := "utils/alpha", files := [strBytes "usr/bin/foo"] },
   { package := "utils/beta", files := [strBytes "usr/bin/foo"] }]

theorem contents_duplicate_amended_witness :
    ((contentsFileMap ([(strBytes "usr/bin/a", "x")] ++
        (strBytes "usr/bin/foo", "alpha") ::
        ([] ++ (strBytes "usr/bin/foo", "beta") :: []))).2 = ["alpha"] ∧
      lookupPath (contentsFileMap ([(strBytes "usr/bin/a", "x")] ++
        (strBytes "usr/bin/foo", "alpha") ::
        ([] ++ (strBytes "usr/bin/foo", "beta") :: []))).1 (strBytes "usr/bin/foo")
        = some "beta") ∧
    ((compressContentsArch dupEntries).isSome ∧
      contentsLineOf (strBytes "usr/bin/foo", "utils/alpha") ∈
        (compressContentsArch dupEntries).getD [] ∧
      contentsLineOf (strBytes "usr/bin/foo", "utils/beta") ∈
        (compressContentsArch dupEntries).getD []) :=
  ⟨contents_duplicate_amended.1 [(strBytes "usr/bin/a", "x")] [] []
      (strBytes "usr/bin/foo") "alpha" "beta" (by decide) (by decide),
   contents_duplicate_amended.2 dupEntries (strBytes "usr/bin/foo")
      "utils/alpha" "utils/beta" (by decide) (by decide) (by decide)⟩

/-! ### Archive scan
(src/debian/archive.rs, Archive::new lines 20-57)

The constructor scans the ar container once, entry by entry, looking for
the data.tar and control.tar members; it records the entry index and the
codec (gzip or xz) chosen by the member name, breaks as soon as both are
found, and fails with an InvalidData error naming the archive kind that
is missing.  Entries whose header could not be read are skipped but still
count towards the index.  An entry is modelled by the identifier of its
header, or none for an unreadable entry. -/

inductive Codec where
  | gz
  | xz
deriving DecidableEq

/-- Codec selected by a data member name, none for other identifiers. -/
def isDataMember (s : String) : Option Codec :=
  if s = "data.tar.xz" then some .xz
  else if s = "data.tar.gz" then some .gz
  else none

/-- Codec selected by a control member name, none for other identifiers. -/
def isControlMember (s : String) : Option Codec :=
  if s = "control.tar.xz" then some .xz
  else if s = "control.tar.gz" then some .gz
  else none

/-- The member name carrying a data archive of the given codec. -/
def dataName : Codec → String
  | .gz => "data.tar.gz"
  | .xz => "data.tar.xz"

/-- The member name carrying a control archive of the given codec. -/
def controlName : Codec → String
  | .gz => "control.tar.gz"
  | .xz => "control.tar.xz"

/-- The scanning loop of Archive::new: walk the entries, record data and
control positions, break when both are found. -/
def scanGo (es : List (Option String)) (i : Nat)
    (d c : Option (Nat × Codec)) : Option (Nat × Codec) × Option (Nat × Codec) :=
  match es with
  | [] => (d, c)
  | e :: rest =>
    match e with
    | none => scanGo rest (i + 1) d c
    | some s =>
      match isDataMember s with
      | some cd =>
        if c.isSome then (some (i, cd), c)
        else scanGo rest (i + 1) (some (i, cd)) c
      | none =>
        match isControlMember s with
        | some cc =>
          if d.isSome then (d, some (i, cc))
          else scanGo rest (i + 1) d (some (i, cc))
        | none => scanGo rest (i + 1) d c

/-- The two error kinds of Archive::new, both io::ErrorKind::InvalidData
with a message naming the missing archive. -/
inductive ArchiveScanError where
  | dataNotFound
  | controlNotFound
deriving DecidableEq

/-- Model of Archive::new: a single linear scan of the container entries,
returning the recorded (position, codec) of the data and control members,
or the InvalidData error for the missing member. -/
def archiveNew (es : List (Option String)) :
    Except ArchiveScanError ((Nat × Codec) × (Nat × Codec)) :=
  match scanGo es 0 none none with
  | (some d, some c) => .ok (d, c)
  | (none, _) => .error .dataNotFound
  | (some _, none) => .error .controlNotFound

/-- Does the entry list contain a readable member with the given name? -/
def hasMember (es : List (Option String)) (name : String) : Prop :=
  some name ∈ es

instance (es : List (Option String)) (name : String) :
    Decidable (hasMember es name) := by
  unfold hasMember
  infer_instance

/-- Presence of a data member among the readable entries. -/
def dataMem (es : List (Option String)) : Prop :=
  hasMember es "data.tar.gz" ∨ hasMember es "data.tar.xz"

/-- Presence of a control member among the readable entries. -/
def ctrlMem (es : List (Option String)) : Prop :=
  hasMember es "control.tar.gz" ∨ hasMember es "control.tar.xz"

instance (es : List (Option String)) : Decidable (dataMem es) := by
  unfold dataMem; infer_instance

instance (es : List (Option String)) : Decidable (ctrlMem es) := by
  unfold ctrlMem; infer_instance

theorem isDataMember_eq_some_iff (s : String) (cd : Codec) :
    isDataMember s = some cd ↔ s = dataName cd := by
  cases cd <;>
    · unfold isDataMember dataName
      by_cases h1 : s = "data.tar.xz" <;> by_cases h2 : s = "data.tar.gz" <;>
        simp_all

theorem isControlMember_eq_some_iff (s : String) (cc : Codec) :
    isControlMember s = some cc ↔ s = controlName cc := by
  cases cc <;>
    · unfold isControlMember controlName
      by_cases h1 : s = "control.tar.xz" <;> by_cases h2 : s = "control.tar.gz" <;>
        simp_all

theorem isDataMember_none_iff (s : String) :
    isDataMember s = none ↔ (s ≠ "data.tar.gz" ∧ s ≠ "data.tar.xz") := by
  unfold isDataMember
  by_cases h1 : s = "data.tar.xz" <;> by_cases h2 : s = "data.tar.gz" <;> simp_all

theorem isControlMember_none_iff (s : String) :
    isControlMember s = none ↔ (s ≠ "control.tar.gz" ∧ s ≠ "control.tar.xz") := by
  unfold isControlMember
  by_cases h1 : s = "control.tar.xz" <;> by_cases h2 : s = "control.tar.gz" <;> simp_all

theorem dataMem_cons_iff (e : Option String) (rest : List (Option String)) :
    dataMem (e :: rest) ↔
      (∃ cd, e = some (dataName cd)) ∨ dataMem rest := by
  unfold dataMem hasMember
  simp only [List.mem_cons]
  constructor
  · rintro ((h | h) | (h | h))
    · exact Or.inl ⟨.gz, h.symm⟩
    · exact Or.inr (Or.inl h)
    · exact Or.inl ⟨.xz, h.symm⟩
    · exact Or.inr (Or.inr h)
  · rintro (⟨cd, h⟩ | (h | h))
    · cases cd
      · exact Or.inl (Or.inl h.symm)
      · exact Or.inr (Or.inl h.symm)
    · exact Or.inl (Or.inr h)
    · exact Or.inr (Or.inr h)

theorem ctrlMem_cons_iff (e : Option String) (rest : List (Option String)) :
    ctrlMem (e :: rest) ↔
      (∃ cc, e = some (controlName cc)) ∨ ctrlMem rest := by
  unfold ctrlMem hasMember
  simp only [List.mem_cons]
  constructor
  · rintro ((h | h) | (h | h))
    · exact Or.inl ⟨.gz, h.symm⟩
    · exact Or.inr (Or.inl h)
    · exact Or.inl ⟨.xz, h.symm⟩
    · exact Or.inr (Or.inr h)
  · rintro (⟨cc, h⟩ | (h | h))
    · cases cc
      · exact Or.inl (Or.inl h.symm)
      · exact Or.inr (Or.inl h.symm)
    · exact Or.inl (Or.inr h)
    · exact Or.inr (Or.inr h)

theorem some_data_not_ctrl (cd : Codec) : ∀ cc, some (dataName cd) ≠ some (controlName cc) := by
  intro cc
  cases cd <;> cases cc <;> simp [dataName, controlName]

/-- Combined invariant of the scanning loop: the data and control slots
are filled exactly when a member of the kind is present (or the slot was
already filled), and a filled slot always records the index of an entry
holding the member name of the recorded codec. -/
theorem scanGo_spec (es : List (Option String)) :
    ∀ (i : Nat) (d c : Option (Nat × Codec)),
      ((scanGo es i d c).1.isSome ↔ (d.isSome ∨ dataMem es)) ∧
      ((scanGo es i d c).2.isSome ↔ (c.isSome ∨ ctrlMem es)) ∧
      (∀ v, (scanGo es i d c).1 = some v →
        d = some v ∨ (v.1 ≥ i ∧ es.get? (v.1 - i) = some (some (dataName v.2)))) ∧
      (∀ v, (scanGo es i d c).2 = some v →
        c = some v ∨ (v.1 ≥ i ∧ es.get? (v.1 - i) = some (some (controlName v.2)))) := by
  induction es with
  | nil =>
    intro i d c
    refine ⟨by simp [scanGo, dataMem, hasMember], by simp [scanGo, ctrlMem, hasMember],
      ?_, ?_⟩ <;> · intro v hv; exact Or.inl hv
  | cons e rest ih =>
    intro i d c
    cases e with
    | none =>
      have heq : scanGo (none :: rest) i d c = scanGo rest (i + 1) d c := rfl
      obtain ⟨ih1, ih2, ih3, ih4⟩ := ih (i + 1) d c
      rw [heq]
      refine ⟨?_, ?_, ?_, ?_⟩
      · rw [ih1, dataMem_cons_iff]
        constructor
        · rintro (h | h)
          · exact Or.inl h
          · exact Or.inr (Or.inr h)
        · rintro (h | (⟨cd, hcd⟩ | h))
          · exact Or.inl h
          · exact absurd hcd (by simp)
          · exact Or.inr h
      · rw [ih2, ctrlMem_cons_iff]
        constructor
        · rintro (h | h)
          · exact Or.inl h
          · exact Or.inr (Or.inr h)
        · rintro (h | (⟨cc, hcc⟩ | h))
          · exact Or.inl h
          · exact absurd hcc (by simp)
          · exact Or.inr h
      · intro v hv
        rcases ih3 v hv with h | ⟨hge, hget⟩
        · exact Or.inl h
        · refine Or.inr ⟨by omega, ?_⟩
          have : v.1 - i = (v.1 - (i + 1)) + 1 := by omega
          rw [this]
          simpa using hget
      · intro v hv
        rcases ih4 v hv with h | ⟨hge, hget⟩
        · exact Or.inl h
        · refine Or.inr ⟨by omega, ?_⟩
          have : v.1 - i = (v.1 - (i + 1)) + 1 := by omega
          rw [this]
          simpa using hget
    | some s =>
      cases hdm : isDataMember s with
      | some cd =>
        have hs : s = dataName cd := (isDataMember_eq_some_iff s cd).mp hdm
        subst hs
        have heq : ∀ d0, scanGo (some (dataName cd) :: rest) i d0 c =
            if c.isSome then (some (i, cd), c)
            else scanGo rest (i + 1) (some (i, cd)) c := by
          intro d0
          simp [scanGo, hdm]
        by_cases hc : c.isSome
        · rw [heq d, if_pos hc]
          refine ⟨?_, ?_, ?_, ?_⟩
          · simp only [Option.isSome_some, true_iff]
            exact Or.inr ((dataMem_cons_iff _ _).mpr (Or.inl ⟨cd, rfl⟩))
          · simp [hc]
          · intro v hv
            simp only [Option.some.injEq] at hv
            subst hv
            refine Or.inr ⟨by omega, ?_⟩
            simp
          · intro v hv
            exact Or.inl hv
        · rw [heq d, if_neg hc]
          obtain ⟨ih1, ih2, ih3, ih4⟩ := ih (i + 1) (some (i, cd)) c
          refine ⟨?_, ?_, ?_, ?_⟩
          · rw [ih1]
            simp only [Option.isSome_some, true_or, true_iff]
            exact Or.inr ((dataMem_cons_iff _ _).mpr (Or.inl ⟨cd, rfl⟩))
          · rw [ih2, ctrlMem_cons_iff]
            constructor
            · rintro (h | h)
              · exact Or.inl h
              · exact Or.inr (Or.inr h)
            · rintro (h | (⟨cc, hcc⟩ | h))
              · exact Or.inl h
              · exact absurd hcc (some_data_not_ctrl cd cc)
              · exact Or.inr h
          · intro v hv
            rcases ih3 v hv with h | ⟨hge, hget⟩
            · rcases Option.some.inj h with rfl
              refine Or.inr ⟨by omega, ?_⟩
              simp
            · refine Or.inr ⟨by omega, ?_⟩
              have : v.1 - i = (v.1 - (i + 1)) + 1 := by omega
              rw [this]
              simpa using hget
          · intro v hv
            rcases ih4 v hv with h | ⟨hge, hget⟩
            · exact Or.inl h
            · refine Or.inr ⟨by omega, ?_⟩
              have : v.1 - i = (v.1 - (i + 1)) + 1 := by omega
              rw [this]
              simpa using hget
      | none =>
        cases hcm : isControlMember s with
        | some cc =>
          have hs : s = controlName cc := (isControlMember_eq_some_iff s cc).mp hcm
          subst hs
          have heq : scanGo (some (controlName cc) :: rest) i d c =
              if d.isSome then (d, some (i, cc))
              else scanGo rest (i + 1) d (some (i, cc)) := by
            simp [scanGo, hdm, hcm]
          by_cases hd : d.isSome
          · rw [heq, if_pos hd]
            refine ⟨?_, ?_, ?_, ?_⟩
            · simp [hd]
            · simp only [Option.isSome_some, true_iff]
              exact Or.inr ((ctrlMem_cons_iff _ _).mpr (Or.inl ⟨cc, rfl⟩))
            · intro v hv
              exact Or.inl hv
            · intro v hv
              simp only [Option.some.injEq] at hv
              subst hv
              refine Or.inr ⟨by omega, ?_⟩
              simp
          · rw [heq, if_neg hd]
            obtain ⟨ih1, ih2, ih3, ih4⟩ := ih (i + 1) d (some (i, cc))
            refine ⟨?_, ?_, ?_, ?_⟩
            · rw [ih1, dataMem_cons_iff]
              constructor
              · rintro (h | h)
                · exact Or.inl h
                · exact Or.inr (Or.inr h)
              · rintro (h | (⟨cd, hcd⟩ | h))
                · exact Or.inl h
                · exact absurd hcd (fun hh => some_data_not_ctrl cd cc hh.symm)
                · exact Or.inr h
            · rw [ih2]
              simp only [Option.isSome_some, true_or, true_iff]
              exact Or.inr ((ctrlMem_cons_iff _ _).mpr (Or.inl ⟨cc, rfl⟩))
            · intro v hv
              rcases ih3 v hv with h | ⟨hge, hget⟩
              · exact Or.inl h
              · refine Or.inr ⟨by omega, ?_⟩
                have : v.1 - i = (v.1 - (i + 1)) + 1 := by omega
                rw [this]
                simpa using hget
            · intro v hv
              rcases ih4 v hv with h | ⟨hge, hget⟩
              · rcases Option.some.inj h with rfl
                refine Or.inr ⟨by omega, ?_⟩
                simp
              · refine Or.inr ⟨by omega, ?_⟩
                have : v.1 - i = (v.1 - (i + 1)) + 1 := by omega
                rw [this]
                simpa using hget
        | none =>
          have heq : scanGo (some s :: rest) i d c = scanGo rest (i + 1) d c := by
            simp [scanGo, hdm, hcm]
          obtain ⟨hne1, hne2⟩ := (isDataMember_none_iff s).mp hdm
          obtain ⟨hne3, hne4⟩ := (isControlMember_none_iff s).mp hcm
          obtain ⟨ih1, ih2, ih3, ih4⟩ := ih (i + 1) d c
          rw [heq]
          refine ⟨?_, ?_, ?_, ?_⟩
          · rw [ih1, dataMem_cons_iff]
            constructor
            · rintro (h | h)
              · exact Or.inl h
              · exact Or.inr (Or.inr h)
            · rintro (h | (⟨cd, hcd⟩ | h))
              · exact Or.inl h
              · exact absurd (Option.some.inj hcd) (by cases cd <;> simp [dataName, hne1, hne2])
              · exact Or.inr h
          · rw [ih2, ctrlMem_cons_iff]
            constructor
            · rintro (h | h)
              · exact Or.inl h
              · exact Or.inr (Or.inr h)
            · rintro (h | (⟨cc, hcc⟩ | h))
              · exact Or.inl h
              · exact absurd (Option.some.inj hcc) (by cases cc <;> simp [controlName, hne3, hne4])
              · exact Or.inr h
          · intro v hv
            rcases ih3 v hv with h | ⟨hge, hget⟩
            · exact Or.inl h
            · refine Or.inr ⟨by omega, ?_⟩
              have : v.1 - i = (v.1 - (i + 1)) + 1 := by omega
              rw [this]
              simpa using hget
          · intro v hv
            rcases ih4 v hv with h | ⟨hge, hget⟩
            · exact Or.inl h
            · refine Or.inr ⟨by omega, ?_⟩
              have : v.1 - i = (v.1 - (i + 1)) + 1 := by omega
              rw [this]
              simpa using hget

/-- C7: Archive::new returns the InvalidData error for the data archive
when no data.tar.gz or data.tar.xz member is readable, the InvalidData
error for the control archive when a data member exists but no
control.tar.gz or control.tar.xz member does, succeeds exactly when both
kinds of member are present, and on success the recorded positions index
entries holding the member name of the recorded codec -- position and
codec, not bytes. -/
theorem archive_new_invalid_data (es : List (Option String)) :
    ((archiveNew es).isOk ↔ (dataMem es ∧ ctrlMem es)) ∧
    (archiveNew es = .error .dataNotFound ↔ ¬ dataMem es) ∧
    (archiveNew es = .error .controlNotFound ↔ (dataMem es ∧ ¬ ctrlMem es)) ∧
    (∀ dv cv, archiveNew es = .ok (dv, cv) →
      es.get? dv.1 = some (some (dataName dv.2)) ∧
      es.get? cv.1 = some (some (controlName cv.2))) := by
  obtain ⟨h1, h2, h3, h4⟩ := scanGo_spec es 0 none none
  cases hscan : scanGo es 0 none none with
  | mk dopt copt =>
    rw [hscan] at h1 h2 h3 h4
    simp only [Option.isSome_none, Bool.false_eq_true, false_or] at h1 h2
    cases dopt with
    | none =>
      have hnd : ¬ dataMem es := by
        intro h
        have := h1.mpr h
        simp at this
      refine ⟨?_, ?_, ?_, ?_⟩
      · rw [archiveNew, hscan]
        constructor
        · intro h; simp [Except.isOk, Except.toBool] at h
        · rintro ⟨hd, _⟩; exact absurd hd hnd
      · rw [archiveNew, hscan]
        simp [hnd]
      · rw [archiveNew, hscan]
        constructor
        · intro h; simp at h
        · rintro ⟨hd, _⟩; exact absurd hd hnd
      · intro dv cv h
        rw [archiveNew, hscan] at h
        simp at h
    | some d =>
      have hd : dataMem es := h1.mp (by simp)
      cases copt with
      | none =>
        have hnc : ¬ ctrlMem es := by
          intro h
          have := h2.mpr h
          simp at this
        refine ⟨?_, ?_, ?_, ?_⟩
        · rw [archiveNew, hscan]
          constructor
          · intro h; simp [Except.isOk, Except.toBool] at h
          · rintro ⟨_, hc⟩; exact absurd hc hnc
        · rw [archiveNew, hscan]
          constructor
          · intro h; simp at h
          · intro h; exact absurd hd h
        · rw [archiveNew, hscan]
          simp [hd, hnc]
        · intro dv cv h
          rw [archiveNew, hscan] at h
          simp at h
      | some c =>
        have hc : ctrlMem es := h2.mp (by simp)
        refine ⟨?_, ?_, ?_, ?_⟩
        · rw [archiveNew, hscan]
          simp [hd, hc, Except.isOk, Except.toBool]
        · rw [archiveNew, hscan]
          simp [hd]
        · rw [archiveNew, hscan]
          simp [hc]
        · intro dv cv h
          rw [archiveNew, hscan] at h
          simp only [Except.ok.injEq, Prod.mk.injEq] at h
          obtain ⟨hdv, hcv⟩ := h
          subst hdv
          subst hcv
          constructor
          · rcases h3 d rfl with h | ⟨_, hget⟩
            · simp at h
            · simpa using hget
          · rcases h4 c rfl with h | ⟨_, hget⟩
            · simp at h
            · simpa using hget

/-- Witness: a container with debian-binary, gzip control and xz data;
the scan records position 2 with the xz codec for data and position 1
with the gzip codec for control. -/
theorem archive_new_invalid_data_witness :
    [some "debian-binary", some "control.tar.gz", some "data.tar.xz"].get? 2 =
        some (some (dataName Codec.xz)) ∧
    [some "debian-binary", some "control.tar.gz", some "data.tar.xz"].get? 1 =
        some (some (controlName Codec.gz)) :=
  (archive_new_invalid_data
      [some "debian-binary", some "control.tar.gz", some "data.tar.xz"]).2.2.2
    (2, Codec.xz) (1, Codec.gz) rfl

/-! ### Multi-format compression
(src/compress.rs, inner_compress lines 31-67)

The destination selection by bit flags is translated from the source.
The fan-out writer and the compression codecs live in external crates
(bus_writer, deflate, xz2) whose sources are not part of this repository;
they are modelled from the spec: the BusWriter performs one pass over the
stream broadcasting each chunk to every destination, and each encoder is
a function from the bytes it was fed to the bytes of its output file. -/

def UNCOMPRESSED : Nat := 1
def GZ_COMPRESS : Nat := 2
def XZ_COMPRESS : Nat := 4
def ZSTD_COMPRESS : Nat := 8

/-- Modelled from the spec: the single-pass fan-out of the external
bus_writer crate: fold once over the chunks of the stream, appending each
chunk to every open sink. -/
def busWrite (chunks : List (List Nat)) (sinks : List (List Nat)) : List (List Nat) :=
  chunks.foldl (fun ss chunk => ss.map (fun s => s ++ chunk)) sinks

/-- The whole logical byte stream. -/
def concatChunks (chunks : List (List Nat)) : List Nat := chunks.flatten

/-- Model of inner_compress: open one destination per flag bit set in
support (uncompressed, gzip, xz -- the zstd bit opens nothing), feed the
stream once through the fan-out writer, and finish every encoder over the
bytes it accumulated.  Returns the files written: name and content. -/
def inner_compress (name : String) (chunks : List (List Nat)) (support : Nat)
    (gz xz : List Nat → List Nat) : List (String × List Nat) :=
  if support = 0 then []
  else
    let encs : List (String × (List Nat → List Nat)) :=
      (if support &&& UNCOMPRESSED ≠ 0 then [(name, fun s => s)] else []) ++
      (if support &&& GZ_COMPRESS ≠ 0 then [(name ++ ".gz", gz)] else []) ++
      (if support &&& XZ_COMPRESS ≠ 0 then [(name ++ ".xz", xz)] else [])
    let fed := busWrite chunks (encs.map (fun _ => []))
    (encs.zip fed).map (fun pr => (pr.1.1, pr.1.2 pr.2))

theorem busWrite_eq_map (chunks : List (List Nat)) (sinks : List (List Nat)) :
    busWrite chunks sinks = sinks.map (fun s => s ++ concatChunks chunks) := by
  induction chunks generalizing sinks with
  | nil => simp [busWrite, concatChunks]
  | cons ch rest ih =>
    have : busWrite (ch :: rest) sinks =
        busWrite rest (sinks.map (fun s => s ++ ch)) := rfl
    rw [this, ih]
    simp only [List.map_map, concatChunks, List.flatten_cons]
    apply List.map_congr_left
    intro s _
    simp [List.append_assoc]

/-- C6: with all three formats requested, inner_compress writes exactly
one destination file per format -- name, name.gz, name.xz -- and every
destination receives the same single concatenation of the stream chunks
(the stream is consumed by one fold, once, regardless of the number of
destinations); for codec pairs that invert each other, decompressing the
gzip output and the xz output both give exactly the uncompressed output,
which is the input stream.  For every support bitset, the files created
are exactly those named by the requested formats. -/
theorem compress_fanout (name : String) (chunks : List (List Nat))
    (gz xz gzDec xzDec : List Nat → List Nat)
    (hgz : ∀ s, gzDec (gz s) = s) (hxz : ∀ s, xzDec (xz s) = s) :
    (inner_compress name chunks (UNCOMPRESSED ||| GZ_COMPRESS ||| XZ_COMPRESS) gz xz
      = [(name, concatChunks chunks),
         (name ++ ".gz", gz (concatChunks chunks)),
         (name ++ ".xz", xz (concatChunks chunks))]) ∧
    (gzDec (gz (concatChunks chunks)) = concatChunks chunks ∧
     xzDec (xz (concatChunks chunks)) = concatChunks chunks) ∧
    (∀ support, (inner_compress name chunks support gz xz).map Prod.fst =
      if support = 0 then []
      else
        (if support &&& UNCOMPRESSED ≠ 0 then [name] else []) ++
        (if support &&& GZ_COMPRESS ≠ 0 then [name ++ ".gz"] else []) ++
        (if support &&& XZ_COMPRESS ≠ 0 then [name ++ ".xz"] else [])) := by
  refine ⟨?_, ⟨hgz _, hxz _⟩, ?_⟩
  · have h1 : (UNCOMPRESSED ||| GZ_COMPRESS ||| XZ_COMPRESS) &&& UNCOMPRESSED ≠ 0 := by
      decide
    have h2 : (UNCOMPRESSED ||| GZ_COMPRESS ||| XZ_COMPRESS) &&& GZ_COMPRESS ≠ 0 := by
      decide
    have h4 : (UNCOMPRESSED ||| GZ_COMPRESS ||| XZ_COMPRESS) &&& XZ_COMPRESS ≠ 0 := by
      decide
    have h0 : ¬ (UNCOMPRESSED ||| GZ_COMPRESS ||| XZ_COMPRESS) = 0 := by decide
    simp only [inner_compress, if_neg h0, if_pos h1, if_pos h2, if_pos h4,
      busWrite_eq_map]
    simp
  · intro support
    by_cases h0 : support = 0
    · simp [inner_compress, h0]
    · by_cases h1 : support &&& UNCOMPRESSED ≠ 0 <;>
        by_cases h2 : support &&& GZ_COMPRESS ≠ 0 <;>
          by_cases h4 : support &&& XZ_COMPRESS ≠ 0 <;>
            simp [inner_compress, h0, h1, h2, h4, busWrite_eq_map]

/-- Witness: a two-chunk stream with the identity as both codecs. -/
theorem compress_fanout_witness :
    inner_compress "Packages" [[1, 2], [3]]
        (UNCOMPRESSED ||| GZ_COMPRESS ||| XZ_COMPRESS)
        (fun s => s) (fun s => s)
      = [("Packages", concatChunks [[1, 2], [3]]),
         ("Packages" ++ ".gz", concatChunks [[1, 2], [3]]),
         ("Packages" ++ ".xz", concatChunks [[1, 2], [3]])] :=
  (compress_fanout "Packages" [[1, 2], [3]] (fun s => s) (fun s => s)
    (fun s => s) (fun s => s) (fun _ => rfl) (fun _ => rfl)).1

/-! ### Debian version ordering
(the deb_version crate used by src/repo/build/mod.rs)

Modelled from the spec: the sbuild dependency loop compares versions with
deb_version::compare_versions, the standard Debian ordering -- epoch,
upstream and revision compared by the dpkg algorithm, not lexically.  The
crate is an external dependency whose source is not part of this
repository, so the ordering is modelled from the Debian policy algorithm
the spec names: a version splits into a numeric epoch (before the first
colon), an upstream part and a revision (after the last hyphen); the
parts alternate maximal non-digit and digit runs; non-digit runs compare
by a modified character order in which tilde sorts before the end of the
string and letters sort before other characters, and digit runs compare
numerically.

The comparison is represented by a key: each non-digit run maps to its
character ranks followed by a 0 terminator (no character ranks to 0, so
lexicographic comparison of terminated rank lists is exactly the dpkg run
comparison), each digit run to its numeric value, and a version part to
the list of alternating (run key, value) tokens compared lexicographically
after padding the shorter list with the token of an empty run. -/

/-- Modified dpkg character order: tilde before everything (rank -1),
letters by code point, every other character after all letters. -/
def charRank (c : Char) : Int :=
  if c = '~' then -1
  else if c.isAlpha then (c.toNat : Int)
  else (c.toNat : Int) + 256

/-- Key of a maximal non-digit run: ranks terminated by 0 (the rank of
the end of the string, smaller than every non-tilde character). -/
def chunkKey (s : List Char) : List Int :=
  s.map charRank ++ [0]

/-- One alternation token: non-digit run key paired lexicographically
with the value of the following digit run. -/
abbrev VTok := (List Int) ×ₗ Nat

/-- Numeric value of a digit run (leading zeros are immaterial). -/
def digitsVal (s : List Char) : Nat :=
  s.foldl (fun a c => 10 * a + (c.toNat - 48)) 0

/-- Fuel-driven tokenizer of a version part into alternating tokens; the
fuel is the length of the input, and each step consumes at least one
character, so the fuel never runs out. -/
def tokenizeF : Nat → List Char → List VTok
  | 0, _ => []
  | _, [] => []
  | fuel + 1, s =>
    let nd := s.takeWhile (fun c => !c.isDigit)
    let rest := s.dropWhile (fun c => !c.isDigit)
    let ds := rest.takeWhile (fun c => c.isDigit)
    let rest2 := rest.dropWhile (fun c => c.isDigit)
    toLex (chunkKey nd, digitsVal ds) :: tokenizeF fuel rest2

/-- Tokenize a version part. -/
def tokenize (s : List Char) : List VTok := tokenizeF s.length s

/-- The key of a whole Debian version: epoch, upstream tokens, revision
tokens. -/
structure VKey where
  epoch : Nat
  up : List VTok
  rev : List VTok

/-- Split off the epoch: the digits before the first colon when a colon
is present. -/
def splitEpoch (s : List Char) : Nat × List Char :=
  if s.contains ':' then
    (digitsVal ((s.takeWhile (fun c => c != ':')).takeWhile (fun c => c.isDigit)),
     (s.dropWhile (fun c => c != ':')).drop 1)
  else (0, s)

/-- Split upstream and revision at the last hyphen; without a hyphen the
revision is empty. -/
def splitRev (s : List Char) : List Char × List Char :=
  if s.contains '-' then
    (((s.reverse.dropWhile (fun c => c != '-')).drop 1).reverse,
     (s.reverse.takeWhile (fun c => c != '-')).reverse)
  else (s, [])

/-- Key of a Debian version string. -/
def vkey (v : String) : VKey :=
  let (ep, rest) := splitEpoch v.data
  let (up, rv) := splitRev rest
  ⟨ep, tokenize up, tokenize rv⟩

/-- The token of an empty run: the padding used when one token list is
shorter than the other. -/
def padTok : VTok := toLex (chunkKey [], 0)

/-- Pad a token list with empty-run tokens up to a length. -/
def padTo (u : List VTok) (L : Nat) : List VTok :=
  u ++ List.replicate (L - u.length) padTok

/-- Strict comparison of two token lists: lexicographic comparison after
padding both to a common length. -/
def ptLt (u v : List VTok) : Prop :=
  padTo u (max u.length v.length) < padTo v (max u.length v.length)

/-- Equality of two token lists up to padding. -/
def ptEq (u v : List VTok) : Prop :=
  padTo u (max u.length v.length) = padTo v (max u.length v.length)

instance (u v : List VTok) : Decidable (ptLt u v) := by
  unfold ptLt; infer_instance

instance (u v : List VTok) : Decidable (ptEq u v) := by
  unfold ptEq; infer_instance

/-- Strict Debian ordering of version keys: epoch first, then upstream
tokens, then revision tokens. -/
def vkLt (k1 k2 : VKey) : Prop :=
  k1.epoch < k2.epoch ∨
    (k1.epoch = k2.epoch ∧
      (ptLt k1.up k2.up ∨ (ptEq k1.up k2.up ∧ ptLt k1.rev k2.rev)))

/-- Equivalence of version keys. -/
def vkEq (k1 k2 : VKey) : Prop :=
  k1.epoch = k2.epoch ∧ ptEq k1.up k2.up ∧ ptEq k1.rev k2.rev

instance (k1 k2 : VKey) : Decidable (vkLt k1 k2) := by
  unfold vkLt; infer_instance

instance (k1 k2 : VKey) : Decidable (vkEq k1 k2) := by
  unfold vkEq; infer_instance

/-- Model of deb_version::compare_versions(a, b) == Ordering::Less, the
test of the sbuild dependency deduplication loop. -/
def debLess (a b : String) : Prop := vkLt (vkey a) (vkey b)

/-- Debian-order equivalence of version strings. -/
def debEquiv (a b : String) : Prop := vkEq (vkey a) (vkey b)

instance (a b : String) : Decidable (debLess a b) := by
  unfold debLess; infer_instance

instance (a b : String) : Decidable (debEquiv a b) := by
  unfold debEquiv; infer_instance

theorem list_lt_iff_lex {α : Type} [LinearOrder α] (x y : List α) :
    x < y ↔ List.Lex (· < ·) x y := Iff.rfl

theorem lex_cons_iff {α : Type} [LinearOrder α] (a b : α) (u v : List α) :
    List.Lex (· < ·) (a :: u) (b :: v) ↔ a < b ∨ (a = b ∧ List.Lex (· < ·) u v) := by
  constructor
  · intro h
    cases h with
    | rel h => exact Or.inl h
    | cons h => exact Or.inr ⟨rfl, h⟩
  · rintro (h | ⟨rfl, h⟩)
    · exact List.Lex.rel h
    · exact List.Lex.cons h

theorem lex_append_iff {α : Type} [LinearOrder α] :
    ∀ (x y s t : List α), x.length = y.length →
      (List.Lex (· < ·) (x ++ s) (y ++ t) ↔
        (List.Lex (· < ·) x y ∨ (x = y ∧ List.Lex (· < ·) s t))) := by
  intro x
  induction x with
  | nil =>
    intro y s t hlen
    cases y with
    | nil => simp
    | cons b v => simp at hlen
  | cons a u ih =>
    intro y s t hlen
    cases y with
    | nil => simp at hlen
    | cons b v =>
      simp only [List.length_cons, Nat.add_right_cancel_iff] at hlen
      simp only [List.cons_append, lex_cons_iff, ih v s t hlen, List.cons.injEq]
      constructor
      · rintro (h | ⟨rfl, (h | ⟨rfl, h⟩)⟩)
        · exact Or.inl (Or.inl h)
        · exact Or.inl (Or.inr ⟨rfl, h⟩)
        · exact Or.inr ⟨⟨rfl, rfl⟩, h⟩
      · rintro ((h | ⟨rfl, h⟩) | ⟨⟨rfl, rfl⟩, h⟩)
        · exact Or.inl h
        · exact Or.inr ⟨rfl, Or.inl h⟩
        · exact Or.inr ⟨rfl, Or.inr ⟨rfl, h⟩⟩

theorem lt_append_replicate_iff {α : Type} [LinearOrder α] (p : α) (k : Nat)
    (x y : List α) (h : x.length = y.length) :
    (x ++ List.replicate k p) < (y ++ List.replicate k p) ↔ x < y := by
  rw [list_lt_iff_lex, lex_append_iff x y _ _ h, ← list_lt_iff_lex]
  constructor
  · rintro (hlt | ⟨rfl, hrep⟩)
    · exact hlt
    · exact absurd ((list_lt_iff_lex _ _).mpr hrep) (lt_irrefl _)
  · exact Or.inl

theorem eq_append_replicate_iff {α : Type} (p : α) (k : Nat) (x y : List α) :
    (x ++ List.replicate k p) = (y ++ List.replicate k p) ↔ x = y := by
  constructor
  · exact List.append_cancel_right
  · intro h; rw [h]

theorem padTo_length (u : List VTok) (L : Nat) (h : u.length ≤ L) :
    (padTo u L).length = L := by
  simp only [padTo, List.length_append, List.length_replicate]
  omega

theorem padTo_split (u : List VTok) (M L : Nat) (h1 : u.length ≤ M) (h2 : M ≤ L) :
    padTo u L = padTo u M ++ List.replicate (L - M) padTok := by
  simp only [padTo, List.append_assoc, ← List.replicate_add]
  congr 2
  omega

theorem ptLt_stable (u v : List VTok) (L : Nat) (hL : max u.length v.length ≤ L) :
    (padTo u L < padTo v L ↔ ptLt u v) := by
  have hu : u.length ≤ max u.length v.length := Nat.le_max_left _ _
  have hv : v.length ≤ max u.length v.length := Nat.le_max_right _ _
  rw [padTo_split u (max u.length v.length) L hu hL,
      padTo_split v (max u.length v.length) L hv hL]
  rw [lt_append_replicate_iff padTok (L - max u.length v.length) _ _
    (by rw [padTo_length u _ hu, padTo_length v _ hv])]
  exact Iff.rfl

theorem ptEq_stable (u v : List VTok) (L : Nat) (hL : max u.length v.length ≤ L) :
    (padTo u L = padTo v L ↔ ptEq u v) := by
  have hu : u.length ≤ max u.length v.length := Nat.le_max_left _ _
  have hv : v.length ≤ max u.length v.length := Nat.le_max_right _ _
  rw [padTo_split u (max u.length v.length) L hu hL,
      padTo_split v (max u.length v.length) L hv hL]
  rw [eq_append_replicate_iff]
  exact Iff.rfl

theorem ptLt_irrefl (u : List VTok) : ¬ ptLt u u :=
  fun h => lt_irrefl _ h

theorem ptEq_refl (u : List VTok) : ptEq u u := rfl

theorem ptEq_symm {u v : List VTok} (h : ptEq u v) : ptEq v u := by
  unfold ptEq at *
  rw [Nat.max_comm]
  exact h.symm

theorem ptLt_trans {a b c : List VTok} (h1 : ptLt a b) (h2 : ptLt b c) : ptLt a c := by
  set L := max (max a.length b.length) (max b.length c.length) with hL
  have hab : max a.length b.length ≤ L := Nat.le_max_left _ _
  have hbc : max b.length c.length ≤ L := Nat.le_max_right _ _
  have hac : max a.length c.length ≤ L := by
    simp only [Nat.max_le] at *
    omega
  rw [← ptLt_stable a c L hac]
  exact lt_trans ((ptLt_stable a b L hab).mpr h1) ((ptLt_stable b c L hbc).mpr h2)

theorem ptEq_trans {a b c : List VTok} (h1 : ptEq a b) (h2 : ptEq b c) : ptEq a c := by
  set L := max (max a.length b.length) (max b.length c.length) with hL
  have hab : max a.length b.length ≤ L := Nat.le_max_left _ _
  have hbc : max b.length c.length ≤ L := Nat.le_max_right _ _
  have hac : max a.length c.length ≤ L := by
    simp only [Nat.max_le] at *
    omega
  rw [← ptEq_stable a c L hac]
  exact ((ptEq_stable a b L hab).mpr h1).trans ((ptEq_stable b c L hbc).mpr h2)

theorem ptLt_congr_left {a b c : List VTok} (h : ptEq a b) (h2 : ptLt a c) :
    ptLt b c := by
  set L := max (max a.length b.length) (max a.length c.length) with hL
  have hab : max a.length b.length ≤ L := Nat.le_max_left _ _
  have hac : max a.length c.length ≤ L := Nat.le_max_right _ _
  have hbc : max b.length c.length ≤ L := by
    simp only [Nat.max_le] at *
    omega
  rw [← ptLt_stable b c L hbc]
  rw [← (ptEq_stable a b L hab).mpr h]
  exact (ptLt_stable a c L hac).mpr h2

theorem ptLt_congr_right {a b c : List VTok} (h : ptEq a b) (h2 : ptLt c a) :
    ptLt c b := by
  set L := max (max a.length b.length) (max c.length a.length) with hL
  have hab : max a.length b.length ≤ L := Nat.le_max_left _ _
  have hca : max c.length a.length ≤ L := Nat.le_max_right _ _
  have hcb : max c.length b.length ≤ L := by
    simp only [Nat.max_le] at *
    omega
  rw [← ptLt_stable c b L hcb]
  rw [← (ptEq_stable a b L hab).mpr h]
  exact (ptLt_stable c a L hca).mpr h2

theorem ptLt_trichotomy (u v : List VTok) : ptLt u v ∨ ptEq u v ∨ ptLt v u := by
  set L := max u.length v.length with hL
  have huv : max u.length v.length ≤ L := le_refl _
  have hvu : max v.length u.length ≤ L := by rw [Nat.max_comm]
  rcases lt_trichotomy (padTo u L) (padTo v L) with h | h | h
  · exact Or.inl ((ptLt_stable u v L huv).mp h)
  · exact Or.inr (Or.inl ((ptEq_stable u v L huv).mp h))
  · exact Or.inr (Or.inr ((ptLt_stable v u L hvu).mp h))

theorem vkLt_irrefl (k : VKey) : ¬ vkLt k k := by
  rintro (h | ⟨-, h | ⟨-, h⟩⟩)
  · exact lt_irrefl _ h
  · exact ptLt_irrefl _ h
  · exact ptLt_irrefl _ h

theorem vkEq_refl (k : VKey) : vkEq k k := ⟨rfl, ptEq_refl _, ptEq_refl _⟩

theorem vkEq_symm {k1 k2 : VKey} (h : vkEq k1 k2) : vkEq k2 k1 :=
  ⟨h.1.symm, ptEq_symm h.2.1, ptEq_symm h.2.2⟩

theorem vkLt_trans {a b c : VKey} (h1 : vkLt a b) (h2 : vkLt b c) : vkLt a c := by
  rcases h1 with h1 | ⟨he1, h1⟩
  · rcases h2 with h2 | ⟨he2, h2⟩
    · exact Or.inl (lt_trans h1 h2)
    · exact Or.inl (he2 ▸ h1)
  · rcases h2 with h2 | ⟨he2, h2⟩
    · exact Or.inl (he1 ▸ h2)
    · refine Or.inr ⟨he1.trans he2, ?_⟩
      rcases h1 with h1 | ⟨hq1, h1⟩
      · rcases h2 with h2 | ⟨hq2, h2⟩
        · exact Or.inl (ptLt_trans h1 h2)
        · exact Or.inl (ptLt_congr_right hq2 h1)
      · rcases h2 with h2 | ⟨hq2, h2⟩
        · exact Or.inl (ptLt_congr_left (ptEq_symm hq1) h2)
        · exact Or.inr ⟨ptEq_trans hq1 hq2, ptLt_trans h1 h2⟩

theorem vkLt_trichotomy (k1 k2 : VKey) : vkLt k1 k2 ∨ vkEq k1 k2 ∨ vkLt k2 k1 := by
  rcases lt_trichotomy k1.epoch k2.epoch with he | he | he
  · exact Or.inl (Or.inl he)
  · rcases ptLt_trichotomy k1.up k2.up with hu | hu | hu
    · exact Or.inl (Or.inr ⟨he, Or.inl hu⟩)
    · rcases ptLt_trichotomy k1.rev k2.rev with hr | hr | hr
      · exact Or.inl (Or.inr ⟨he, Or.inr ⟨hu, hr⟩⟩)
      · exact Or.inr (Or.inl ⟨he, hu, hr⟩)
      · exact Or.inr (Or.inr (Or.inr ⟨he.symm, Or.inr ⟨ptEq_symm hu, hr⟩⟩))
    · exact Or.inr (Or.inr (Or.inr ⟨he.symm, Or.inl hu⟩))
  · exact Or.inr (Or.inr (Or.inl he))

theorem vkLt_congr_left {a b c : VKey} (h : vkEq a b) (h2 : vkLt a c) : vkLt b c := by
  obtain ⟨he, hu, hr⟩ := h
  rcases h2 with h2 | ⟨he2, h2 | ⟨hq2, h2⟩⟩
  · exact Or.inl (he ▸ h2)
  · exact Or.inr ⟨he ▸ he2, Or.inl (ptLt_congr_left hu h2)⟩
  · exact Or.inr ⟨he ▸ he2,
      Or.inr ⟨ptEq_trans (ptEq_symm hu) hq2, ptLt_congr_left hr h2⟩⟩

theorem vkLt_congr_right {a b c : VKey} (h : vkEq a b) (h2 : vkLt c a) : vkLt c b := by
  obtain ⟨he, hu, hr⟩ := h
  rcases h2 with h2 | ⟨he2, h2 | ⟨hq2, h2⟩⟩
  · exact Or.inl (he ▸ h2)
  · exact Or.inr ⟨he2.trans he, Or.inl (ptLt_congr_right hu h2)⟩
  · exact Or.inr ⟨he2.trans he, Or.inr ⟨ptEq_trans hq2 hu, ptLt_congr_right hr h2⟩⟩

theorem debLess_irrefl (a : String) : ¬ debLess a a := vkLt_irrefl _

theorem debLess_trans {a b c : String} (h1 : debLess a b) (h2 : debLess b c) :
    debLess a c := vkLt_trans h1 h2

theorem debLess_trichotomy (a b : String) :
    debLess a b ∨ debEquiv a b ∨ debLess b a := vkLt_trichotomy _ _

theorem debLess_congr_left {a b c : String} (h : debEquiv a b) (h2 : debLess a c) :
    debLess b c := vkLt_congr_left h h2

theorem debLess_congr_right {a b c : String} (h : debEquiv a b) (h2 : debLess c a) :
    debLess c b := vkLt_congr_right h h2

/-- Negative transitivity, the totality fact the running-maximum argument
needs: if a is not below b and b is not below c then a is not below c. -/
theorem debLess_neg_trans {a b c : String} (h1 : ¬ debLess a b) (h2 : ¬ debLess b c)
    (h : debLess a c) : False := by
  rcases debLess_trichotomy a b with hab | hab | hab
  · exact h1 hab
  · exact h2 (debLess_congr_left hab h)
  · exact h2 (debLess_trans hab h)

/-! ### Dependency deduplication
(src/repo/build/mod.rs, the sbuild dependency loop lines 605-627, and
src/debian/info.rs, get_debian_package_info)

For each matched archive the loop parses (name, version) from the file
name, then keeps one stored entry per name, replacing the stored entry
exactly when its version compares strictly less than the new one; a new
name is appended.  A version tie therefore keeps the stored entry: the
first observed wins, not the last. -/

/-- Model of get_debian_package_info: split the file name (after the last
slash of a plain path) at its first two underscores into name and
version; a name parsed from a path whose remainder ends in ddeb gets the
debug suffix key. -/
def get_debian_package_info (p : String) : Option (String × String) :=
  let f := (p.data.reverse.takeWhile (fun c => c != '/')).reverse
  if f.contains '_' then
    let name := f.takeWhile (fun c => c != '_')
    let rest := (f.dropWhile (fun c => c != '_')).drop 1
    if rest.contains '_' then
      some (if rest.reverse.take 4 = ['b', 'e', 'd', 'd']
            then ⟨name ++ ['_', 'd']⟩ else ⟨name⟩,
            ⟨rest.takeWhile (fun c => c != '_')⟩)
    else none
  else none

/-- One stored dependency of the sbuild loop: archive path, match
position, parsed package name and version. -/
structure Dep where
  deb : String
  pos : Nat
  name : String
  ver : String
deriving DecidableEq

/-- One iteration of the loop body over the stored entries: when some
stored entry shares the name, replace it exactly when its version is
strictly less than the new one; otherwise append the new entry. -/
def dedupStep (temp : List Dep) (e : Dep) : List Dep :=
  if temp.any (fun d => d.name == e.name) then
    temp.map (fun d => if d.name = e.name ∧ debLess d.ver e.ver then e else d)
  else temp ++ [e]

/-- The deduplication fold of the sbuild dependency loop. -/
def dedupDeps (l : List Dep) : List Dep := l.foldl dedupStep []

/-- Parse every matched (path, position) pair; none models the expect
panic on an unparsable file name. -/
def buildDeps (pairs : List (String × Nat)) : Option (List Dep) :=
  optTraverse (fun pr => (get_debian_package_info pr.1).map
    (fun nv => ⟨pr.1, pr.2, nv.1, nv.2⟩)) pairs

/-- The full dependency-selection pipeline of sbuild: parse, then
deduplicate. -/
def sbuildDedup (pairs : List (String × Nat)) : Option (List Dep) :=
  (buildDeps pairs).map dedupDeps

/-- Per-name selection step: the per-name projection of dedupStep. -/
def selStep (s : List Dep) (e : Dep) : List Dep :=
  match s with
  | [] => [e]
  | r :: _ => [if debLess r.ver e.ver then e else r]

/-- Running maximum with first-wins ties: replace only on strict
increase. -/
def runMax (r : Dep) (cs : List Dep) : Dep :=
  cs.foldl (fun acc e => if debLess acc.ver e.ver then e else acc) r

theorem dedupStep_names (temp : List Dep) (e : Dep) :
    (dedupStep temp e).map Dep.name =
      if temp.any (fun d => d.name == e.name) then temp.map Dep.name
      else temp.map Dep.name ++ [e.name] := by
  by_cases hfound : temp.any (fun d => d.name == e.name)
  · simp only [dedupStep, if_pos hfound, List.map_map]
    apply List.map_congr_left
    intro d _
    simp only [Function.comp_apply]
    split
    · rename_i hcond
      exact hcond.1.symm
    · rfl
  · simp [dedupStep, hfound]

theorem filter_name_nil (temp : List Dep) (n : String)
    (h : ∀ d ∈ temp, d.name ≠ n) :
    temp.filter (fun d => d.name == n) = [] := by
  rw [List.filter_eq_nil_iff]
  intro d hd
  simpa using h d hd

theorem filter_map_repl_nil (temp : List Dep) (e : Dep) (n : String)
    (hen : e.name = n) (h : ∀ d ∈ temp, d.name ≠ n) :
    (temp.map (fun d => if d.name = e.name ∧ debLess d.ver e.ver then e else d)).filter
        (fun d => d.name == n) = [] := by
  rw [List.filter_eq_nil_iff]
  intro d hd
  rcases List.mem_map.mp hd with ⟨d0, hd0, hrepl⟩
  have hd0n := h d0 hd0
  by_cases hcond : d0.name = e.name ∧ debLess d0.ver e.ver
  · exact absurd (hcond.1.trans hen) hd0n
  · rw [if_neg hcond] at hrepl
    subst hrepl
    simpa using hd0n

theorem filter_map_repl (temp : List Dep) (e : Dep) (n : String) (hen : e.name = n)
    (hnodup : (temp.map Dep.name).Nodup)
    (hfound : temp.any (fun d => d.name == e.name)) :
    (temp.map (fun d => if d.name = e.name ∧ debLess d.ver e.ver then e else d)).filter
        (fun d => d.name == n) =
      selStep (temp.filter (fun d => d.name == n)) e := by
  induction temp with
  | nil => simp [List.any_nil] at hfound
  | cons d rest ih =>
    simp only [List.map_cons, List.nodup_cons] at hnodup
    by_cases hdn : d.name = n
    · have hrest : ∀ r ∈ rest, r.name ≠ n := by
        intro r hr hrn
        have hmem : r.name ∈ rest.map Dep.name := List.mem_map_of_mem Dep.name hr
        rw [hrn, ← hdn] at hmem
        exact hnodup.1 hmem
      have hde : d.name = e.name := hdn.trans hen.symm
      have hfilter : rest.filter (fun x => x.name == n) = [] := filter_name_nil rest n hrest
      have hfnil := filter_map_repl_nil rest e n hen hrest
      have he2 : (e.name == n) = true := by simpa using hen
      have hd2 : (d.name == n) = true := by simpa using hdn
      by_cases hless : debLess d.ver e.ver
      · have hrepl : (if d.name = e.name ∧ debLess d.ver e.ver then e else d) = e :=
          if_pos ⟨hde, hless⟩
        rw [List.map_cons, hrepl, List.filter_cons, if_pos he2, hfnil,
          List.filter_cons, if_pos hd2, hfilter]
        simp only [selStep]
        rw [if_pos hless]
      · have hrepl : (if d.name = e.name ∧ debLess d.ver e.ver then e else d) = d :=
          if_neg (fun hc => hless hc.2)
        rw [List.map_cons, hrepl, List.filter_cons, if_pos hd2, hfnil,
          List.filter_cons, if_pos hd2, hfilter]
        simp only [selStep]
        rw [if_neg hless]
    · have hde : ¬ (d.name = e.name) := fun hc => hdn (hc.trans hen)
      have hrepl : (if d.name = e.name ∧ debLess d.ver e.ver then e else d) = d :=
        if_neg (fun hc => hde hc.1)
      have hdn2 : (d.name == n) = false := by simpa using hdn
      simp only [List.map_cons, hrepl, List.filter_cons, hdn2, Bool.false_eq_true,
        if_false]
      apply ih hnodup.2
      rcases List.any_eq_true.mp hfound with ⟨d0, hd0, hname⟩
      rcases List.mem_cons.mp hd0 with rfl | hd0
      · exact absurd (by simpa using hname) hde
      · exact List.any_eq_true.mpr ⟨d0, hd0, hname⟩

theorem filter_map_repl_other (temp : List Dep) (e : Dep) (n : String)
    (hen : e.name ≠ n) :
    (temp.map (fun d => if d.name = e.name ∧ debLess d.ver e.ver then e else d)).filter
        (fun d => d.name == n) =
      temp.filter (fun d => d.name == n) := by
  induction temp with
  | nil => rfl
  | cons d rest ih =>
    simp only [List.map_cons, List.filter_cons]
    by_cases hcond : d.name = e.name ∧ debLess d.ver e.ver
    · rw [if_pos hcond]
      have h1 : (e.name == n) = false := by simpa using hen
      have h2 : (d.name == n) = false := by
        simp only [beq_eq_false_iff_ne, ne_eq]
        intro hc
        exact hen (hcond.1 ▸ hc)
      simp only [h1, h2, Bool.false_eq_true, if_false]
      exact ih
    · rw [if_neg hcond]
      cases hdn : (d.name == n) <;> simp only [Bool.false_eq_true, if_false, if_pos]
      · exact ih
      · rw [ih]

theorem filter_dedupStep (temp : List Dep) (e : Dep) (n : String)
    (hnodup : (temp.map Dep.name).Nodup) :
    (dedupStep temp e).filter (fun d => d.name == n) =
      if e.name = n then selStep (temp.filter (fun d => d.name == n)) e
      else temp.filter (fun d => d.name == n) := by
  by_cases hfound : temp.any (fun d => d.name == e.name)
  · rw [dedupStep, if_pos hfound]
    by_cases hen : e.name = n
    · rw [if_pos hen, filter_map_repl temp e n hen hnodup hfound]
    · rw [if_neg hen, filter_map_repl_other temp e n hen]
  · rw [dedupStep, if_neg hfound, List.filter_append]
    by_cases hen : e.name = n
    · rw [if_pos hen]
      have hnone : ∀ d ∈ temp, d.name ≠ n := by
        intro d hd hc
        apply hfound
        exact List.any_eq_true.mpr ⟨d, hd, by simp [hc, hen]⟩
      rw [filter_name_nil temp n hnone]
      simp [selStep, hen]
    · rw [if_neg hen]
      have : (e.name == n) = false := by simpa using hen
      simp [this]

theorem debEquiv_symm {a b : String} (h : debEquiv a b) : debEquiv b a :=
  vkEq_symm h

theorem dedupStep_names_nodup (temp : List Dep) (e : Dep)
    (h : (temp.map Dep.name).Nodup) :
    ((dedupStep temp e).map Dep.name).Nodup := by
  rw [dedupStep_names]
  by_cases hfound : temp.any (fun d => d.name == e.name)
  · rw [if_pos hfound]; exact h
  · rw [if_neg hfound, List.nodup_append]
    refine ⟨h, List.nodup_singleton _, ?_⟩
    intro x hx hmem
    rcases List.mem_singleton.mp hmem with rfl
    rcases List.mem_map.mp hx with ⟨d, hd, hdx⟩
    apply hfound
    exact List.any_eq_true.mpr ⟨d, hd, by simp [hdx]⟩

/-- Per-name projection of the deduplication fold: for each name the fold
acts as the single-slot selection fold. -/
theorem dedup_proj (l : List Dep) : ∀ (temp : List Dep) (n : String),
    (temp.map Dep.name).Nodup →
    (l.foldl dedupStep temp).filter (fun d => d.name == n) =
      (l.filter (fun d => d.name == n)).foldl selStep
        (temp.filter (fun d => d.name == n)) := by
  induction l with
  | nil => intro temp n _; rfl
  | cons e l ih =>
    intro temp n h
    rw [List.foldl_cons, ih (dedupStep temp e) n (dedupStep_names_nodup temp e h),
      List.filter_cons]
    by_cases hen : e.name = n
    · have he2 : (e.name == n) = true := by simpa using hen
      rw [if_pos he2, List.foldl_cons, filter_dedupStep temp e n h, if_pos hen]
    · have he2 : (e.name == n) = false := by simpa using hen
      rw [he2]
      simp only [Bool.false_eq_true, if_false]
      rw [filter_dedupStep temp e n h, if_neg hen]

theorem selFold_singleton (cs : List Dep) : ∀ r : Dep,
    cs.foldl selStep [r] = [runMax r cs] := by
  induction cs with
  | nil => intro r; rfl
  | cons e cs ih =>
    intro r
    have h1 : (e :: cs).foldl selStep [r] =
        cs.foldl selStep [if debLess r.ver e.ver then e else r] := rfl
    have h2 : runMax r (e :: cs) = runMax (if debLess r.ver e.ver then e else r) cs := rfl
    rw [h1, h2, ih]

theorem runMax_mem (cs : List Dep) : ∀ r : Dep, runMax r cs ∈ r :: cs := by
  induction cs with
  | nil => intro r; simp [runMax]
  | cons e cs ih =>
    intro r
    have h2 : runMax r (e :: cs) = runMax (if debLess r.ver e.ver then e else r) cs := rfl
    rw [h2]
    rcases List.mem_cons.mp (ih (if debLess r.ver e.ver then e else r)) with h | h
    · rw [h]
      by_cases hc : debLess r.ver e.ver
      · rw [if_pos hc]
        exact List.mem_cons_of_mem _ (List.mem_cons_self _ _)
      · rw [if_neg hc]
        exact List.mem_cons_self _ _
    · exact List.mem_cons_of_mem _ (List.mem_cons_of_mem _ h)

theorem runMax_max (cs : List Dep) : ∀ r : Dep, ∀ e ∈ r :: cs,
    ¬ debLess (runMax r cs).ver e.ver := by
  induction cs with
  | nil =>
    intro r e he
    rcases List.mem_cons.mp he with rfl | h
    · exact debLess_irrefl _
    · simp at h
  | cons x cs ih =>
    intro r e he
    have h2 : runMax r (x :: cs) = runMax (if debLess r.ver x.ver then x else r) cs := rfl
    rw [h2]
    rcases List.mem_cons.mp he with he1 | he2
    · obtain rfl := he1.symm
      by_cases hc : debLess r.ver x.ver
      · rw [if_pos hc]
        intro habs
        exact ih x x (List.mem_cons_self _ _) (debLess_trans habs hc)
      · rw [if_neg hc]
        exact ih r r (List.mem_cons_self _ _)
    · rcases List.mem_cons.mp he2 with he1 | he3
      · obtain rfl := he1.symm
        by_cases hc : debLess r.ver x.ver
        · rw [if_pos hc]
          exact ih x x (List.mem_cons_self _ _)
        · rw [if_neg hc]
          intro habs
          exact debLess_neg_trans (ih r r (List.mem_cons_self _ _)) hc habs
      · by_cases hc : debLess r.ver x.ver
        · rw [if_pos hc]
          exact ih x e (List.mem_cons_of_mem _ he3)
        · rw [if_neg hc]
          exact ih r e (List.mem_cons_of_mem _ he3)

theorem runMax_first (cs : List Dep) : ∀ r : Dep, ∃ pre post,
    r :: cs = pre ++ runMax r cs :: post ∧
    ∀ x ∈ pre, ∃ d ∈ r :: cs, debLess x.ver d.ver := by
  induction cs with
  | nil =>
    intro r
    exact ⟨[], [], rfl, by simp⟩
  | cons e cs ih =>
    intro r
    have h2 : runMax r (e :: cs) = runMax (if debLess r.ver e.ver then e else r) cs := rfl
    by_cases hc : debLess r.ver e.ver
    · obtain ⟨pre2, post2, hsplit, hpre⟩ := ih e
      refine ⟨r :: pre2, post2, ?_, ?_⟩
      · rw [h2, if_pos hc, List.cons_append, ← hsplit]
      · intro x hx
        rcases List.mem_cons.mp hx with rfl | hx2
        · exact ⟨e, List.mem_cons_of_mem _ (List.mem_cons_self _ _), hc⟩
        · obtain ⟨d, hd, hdl⟩ := hpre x hx2
          exact ⟨d, List.mem_cons_of_mem _ hd, hdl⟩
    · obtain ⟨pre2, post2, hsplit, hpre⟩ := ih r
      cases pre2 with
      | nil =>
        simp only [List.nil_append, List.cons.injEq] at hsplit
        refine ⟨[], e :: cs, ?_, by simp⟩
        rw [h2, if_neg hc, ← hsplit.1, List.nil_append]
      | cons p pre2 =>
        rw [List.cons_append, List.cons.injEq] at hsplit
        obtain ⟨hpr, hcs⟩ := hsplit
        subst hpr
        refine ⟨r :: e :: pre2, post2, ?_, ?_⟩
        · rw [h2, if_neg hc, List.cons_append, List.cons_append, ← hcs]
        · intro x hx
          have hrmax : ∃ d ∈ r :: cs, debLess r.ver d.ver :=
            hpre r (List.mem_cons_self _ _)
          rcases List.mem_cons.mp hx with rfl | hx2
          · obtain ⟨d, hd, hdl⟩ := hrmax
            rcases List.mem_cons.mp hd with rfl | hd2
            · exact absurd hdl (debLess_irrefl _)
            · exact ⟨d, List.mem_cons_of_mem _ (List.mem_cons_of_mem _ hd2), hdl⟩
          · rcases List.mem_cons.mp hx2 with rfl | hx3
            · obtain ⟨d, hd, hdl⟩ := hrmax
              have hxd : debLess x.ver d.ver := by
                rcases debLess_trichotomy x.ver d.ver with h | h | h
                · exact h
                · exact absurd (debLess_congr_right (debEquiv_symm h) hdl) hc
                · exact absurd (debLess_trans hdl h) hc
              rcases List.mem_cons.mp hd with rfl | hd2
              · exact absurd hdl (debLess_irrefl _)
              · exact ⟨d, List.mem_cons_of_mem _ (List.mem_cons_of_mem _ hd2), hxd⟩
            · obtain ⟨d, hd, hdl⟩ := hpre x (List.mem_cons_of_mem _ hx3)
              rcases List.mem_cons.mp hd with rfl | hd2
              · obtain ⟨d2, hd2, hdl2⟩ := hrmax
                have hxd : debLess x.ver d2.ver := debLess_trans hdl hdl2
                rcases List.mem_cons.mp hd2 with rfl | hd3
                · exact absurd hdl2 (debLess_irrefl _)
                · exact ⟨d2, List.mem_cons_of_mem _ (List.mem_cons_of_mem _ hd3), hxd⟩
              · exact ⟨d, List.mem_cons_of_mem _ (List.mem_cons_of_mem _ hd2), hdl⟩

/-- C3 counterexample: two archives of the same name foo with the very
same version 1.0 observed in this order.  The claim says the most
recently observed one (position 1) is retained on a version tie; the
loop instead keeps the stored entry, so the first observed path at
position 0 is the one retained. -/
theorem sbuild_dedup_counterexample :
    sbuildDedup
        [("pool/f/foo/foo_1.0_amd64.deb", 0), ("pool/g/foo/foo_1.0_amd64.deb", 1)] =
      some [⟨"pool/f/foo/foo_1.0_amd64.deb", 0, "foo", "1.0"⟩] := by
  decide

/-- C3 amended: for each distinct package name the sbuild dependency
deduplication retains exactly one entry, a candidate whose version no
other candidate of that name exceeds under Debian version ordering; among
the candidates carrying a maximal version the EARLIEST observed one is
retained (every candidate observed before the retained one is strictly
below some candidate), so a version tie keeps the first observed entry,
not the last. -/
theorem sbuild_dedup_keeps_first_max (l : List Dep) (n : String) :
    ((l.filter (fun d => d.name == n) = []) →
        (dedupDeps l).filter (fun d => d.name == n) = []) ∧
    (∀ c cs, l.filter (fun d => d.name == n) = c :: cs →
      (dedupDeps l).filter (fun d => d.name == n) = [runMax c cs] ∧
      runMax c cs ∈ c :: cs ∧
      (∀ e ∈ c :: cs, ¬ debLess (runMax c cs).ver e.ver) ∧
      (∃ pre post : List Dep, c :: cs = pre ++ runMax c cs :: post ∧
        ∀ x ∈ pre, ∃ d ∈ c :: cs, debLess x.ver d.ver)) := by
  have hproj := dedup_proj l [] n (by simp)
  constructor
  · intro hnil
    rw [dedupDeps, hproj, hnil]
    rfl
  · intro c cs hcons
    refine ⟨?_, runMax_mem cs c, runMax_max cs c, runMax_first cs c⟩
    rw [dedupDeps, hproj, hcons]
    have henil : List.filter (fun d : Dep => d.name == n) [] = [] := rfl
    rw [henil]
    have h1 : (c :: cs).foldl selStep [] = cs.foldl selStep [c] := rfl
    rw [h1, selFold_singleton]

/-- Witness candidates: three foo archives with versions 1.0, 1.1, 1.1
and one bar archive; the filter keeps the three foo entries. -/
def demoDeps : List Dep :=
  [⟨"a.deb", 0, "foo", "1.0"⟩, ⟨"b.deb", 1, "bar", "2.0"⟩,
   ⟨"c.deb", 2, "foo", "1.1"⟩, ⟨"d.deb", 3, "foo", "1.1"⟩]

theorem sbuild_dedup_keeps_first_max_witness :
    (dedupDeps demoDeps).filter (fun d => d.name == "foo") =
        [runMax ⟨"a.deb", 0, "foo", "1.0"⟩
          [⟨"c.deb", 2, "foo", "1.1"⟩, ⟨"d.deb", 3, "foo", "1.1"⟩]] ∧
    runMax ⟨"a.deb", 0, "foo", "1.0"⟩
        [⟨"c.deb", 2, "foo", "1.1"⟩, ⟨"d.deb", 3, "foo", "1.1"⟩] ∈
      (⟨"a.deb", 0, "foo", "1.0"⟩ : Dep) ::
        [⟨"c.deb", 2, "foo", "1.1"⟩, ⟨"d.deb", 3, "foo", "1.1"⟩] ∧
    (∀ e ∈ (⟨"a.deb", 0, "foo", "1.0"⟩ : Dep) ::
        [⟨"c.deb", 2, "foo", "1.1"⟩, ⟨"d.deb", 3, "foo", "1.1"⟩],
      ¬ debLess (runMax ⟨"a.deb", 0, "foo", "1.0"⟩
        [⟨"c.deb", 2, "foo", "1.1"⟩, ⟨"d.deb", 3, "foo", "1.1"⟩]).ver e.ver) ∧
    (∃ pre post : List Dep, (⟨"a.deb", 0, "foo", "1.0"⟩ : Dep) ::
        [⟨"c.deb", 2, "foo", "1.1"⟩, ⟨"d.deb", 3, "foo", "1.1"⟩] =
          pre ++ runMax ⟨"a.deb", 0, "foo", "1.0"⟩
            [⟨"c.deb", 2, "foo", "1.1"⟩, ⟨"d.deb", 3, "foo", "1.1"⟩] :: post ∧
      ∀ x ∈ pre, ∃ d ∈ (⟨"a.deb", 0, "foo", "1.0"⟩ : Dep) ::
        [⟨"c.deb", 2, "foo", "1.1"⟩, ⟨"d.deb", 3, "foo", "1.1"⟩],
          debLess x.ver d.ver) :=
  (sbuild_dedup_keeps_first_max demoDeps "foo").2
    ⟨"a.deb", 0, "foo", "1.0"⟩
    [⟨"c.deb", 2, "foo", "1.1"⟩, ⟨"d.deb", 3, "foo", "1.1"⟩] (by decide)

/-- Debian-ordering behavior of the modelled comparison on the examples
the spec names: 1.1 beats 1.0, and 1.0+really1.0 compares above 1.0 by
the dpkg algorithm while a tilde suffix compares below. -/
theorem debian_order_examples :
    debLess "1.0" "1.1" ∧ debLess "1.0" "1.0+really1.0" ∧
    debLess "1.0~beta" "1.0" ∧ debLess "0:1.5" "1:0.9" ∧
    ¬ debLess "1.0" "1.0" := by
  decide

end Debrepbuild
